import Mathlib

/-!
# mf: process-tree supervisor (pkg/mf/mf.go)

A shallow embedding of the process-tree lifecycle engine of `pkg/mf/mf.go`:
descendant discovery (`getChildren`, `getChildrenWorker`,
`GetChildrenRecursive`), the signal dispatchers (`stopProcess`,
`resumeProcess`, `exitProcess`), the tree operations (`Stop`, `Resume`,
`Exit`) and the control loop (`Checker`).

Modelling conventions.

* Pids, times and durations are `Int` (Go `int`, `time.Time` as nanoseconds,
  `time.Duration`); no arithmetic here can overflow.
* A Go `nil` slice and an empty slice are both `[]`.
* What the operating system answers is an input of the model: the process
  snapshot of `ps.Processes()` (`none` when it returns an error), the result
  of every `syscall.Kill` (a `Kernel`, which may depend on everything
  delivered so far), the exit status of the check command and the clock.
* Goroutines and channels are modelled by what the channel protocol
  determines: the order in which concurrent workers hand over their results
  is a parameter (`Sched`, any permutation), and a goroutine that waits on a
  channel nobody will ever serve is the outcome `blocked`.
-/

namespace mf

/-- The `State` type of the source: `Running` is 0, `Stopped` is 1. -/
inductive State
  | Running
  | Stopped
  deriving DecidableEq, Repr

/-- The `Process` struct (the `cmd` handle, used only by `Start` and `Wait`,
is left out). -/
structure Process where
  Command : String
  Pid : Int
  Children : List Int
  CheckCommand : String
  CheckDelay : Int
  CheckInterval : Int
  CheckTimeout : Int
  State : State
  deriving DecidableEq, Repr

/-- One entry of the snapshot returned by `ps.Processes()`: the values of
`Pid()` and `PPid()`. -/
structure PsProcess where
  pid : Int
  ppid : Int
  deriving DecidableEq, Repr

/-- How a call ends. `blocked`: the calling goroutine waits on a channel
forever. `fuelOut`: the bound on the number of levels given to the model was
too small; `levelLoop_fuel` shows that this never happens for the bound
`GetChildrenRecursive` uses. -/
inductive Outcome (α : Type)
  | returned (a : α)
  | blocked
  | fuelOut
  deriving DecidableEq, Repr

/-- The free choices of the Go scheduler: the order in which the workers of
one level hand their batches to the drain loop, and the order in which the
per-child signal goroutines run. Both are arbitrary permutations. -/
structure Sched where
  batches : List (List Int) → List (List Int)
  batches_perm : ∀ bs, (batches bs).Perm bs
  deliveries : List Int → List Int
  deliveries_perm : ∀ cs, (deliveries cs).Perm cs

/-- The scheduler that keeps every order as queued. -/
def Sched.fifo : Sched where
  batches := fun bs => bs
  batches_perm := fun bs => List.Perm.refl bs
  deliveries := fun cs => cs
  deliveries_perm := fun cs => List.Perm.refl cs

/-- The scheduler that reverses every order. -/
def Sched.lifo : Sched where
  batches := fun bs => bs.reverse
  batches_perm := fun bs => List.reverse_perm bs
  deliveries := fun cs => cs.reverse
  deliveries_perm := fun cs => List.reverse_perm cs

/-! ## Descendant discovery -/

/-- `getChildren`: the pids of the snapshot entries whose parent is `pid`, in
snapshot order; nothing for pid 0. (The error result is always nil.) -/
def getChildren (list : List PsProcess) (pid : Int) : List Int :=
  if pid = 0 then []
  else (list.filter (fun proc => proc.ppid = pid)).map (fun proc => proc.pid)

/-- `containsInt`. -/
def containsInt : List Int → Int → Bool
  | [], _ => false
  | a :: s, e => if a = e then true else containsInt s e

/-- The number of `getChildrenWorker` goroutines started per level. -/
def numWorkers : Nat := 10

/-- The send loop of one level of `GetChildrenRecursive` (source lines
225-231): a child already in `checked` is skipped, any other is appended to
`checked` and sent on `pids`. Returns the new `checked` and the pids sent. -/
def queuePids : List Int → List Int → List Int × List Int
  | checked, [] => (checked, [])
  | checked, child :: rest =>
    if containsInt checked child then queuePids checked rest
    else
      let r := queuePids (checked ++ [child]) rest
      (r.1, child :: r.2)

/-- The level loop of `GetChildrenRecursive` (source lines 218-239), with
state `checked`, `newchildren`, `allchildren`.

Both channels are unbuffered and the drain loop starts only after the send
loop, so every worker holds at most one pid before it waits to hand over its
batch: with more than `numWorkers` pids to send, the send loop waits forever.
The drain loop receives `len(newchildren)` batches while one batch is produced
per pid sent: with a skipped pid it waits forever for a batch nobody sends.
Otherwise the batches arrive in the order the scheduler picks. -/
def levelLoop (sched : Sched) (list : List PsProcess) :
    Nat → List Int → List Int → List Int → Outcome (List Int)
  | _, _, [], allchildren => .returned allchildren
  | 0, _, _ :: _, _ => .fuelOut
  | fuel + 1, checked, child :: rest, allchildren =>
    let newchildren := child :: rest
    let q := queuePids checked newchildren
    if numWorkers < q.2.length then .blocked
    else if q.2.length < newchildren.length then .blocked
    else
      let newnewchildren := (sched.batches (q.2.map (getChildren list))).flatten
      levelLoop sched list fuel q.1 newnewchildren (allchildren ++ newnewchildren)

/-- What `GetChildrenRecursive` hands back: the two results and the receiver
after the call. -/
structure Discovered where
  children : List Int
  err : Bool
  proc : Process
  deriving DecidableEq, Repr

/-- `Process.GetChildrenRecursive`. `snapshot` is the result of
`ps.Processes()`, `none` when it fails. -/
def GetChildrenRecursive (sched : Sched) (snapshot : Option (List PsProcess))
    (p : Process) : Outcome Discovered :=
  if p.Pid = 0 then .returned ⟨[], false, p⟩
  else
    match snapshot with
    | none => .returned ⟨[], true, p⟩
    | some list =>
      let children := getChildren list p.Pid
      match levelLoop sched list (list.length + 1) [p.Pid] children children with
      | .returned allchildren =>
        .returned ⟨allchildren, false, { p with Children := allchildren }⟩
      | .blocked => .blocked
      | .fuelOut => .fuelOut

/-! ## Signal dispatch -/

/-- The three signals the supervisor sends. -/
inductive Signal
  | SIGTSTP
  | SIGCONT
  | SIGTERM
  deriving DecidableEq, Repr

/-- One call of `syscall.Kill(pid, sig)` with a real signal, and whether it
returned nil. -/
structure KillEvent where
  pid : Int
  sig : Signal
  ok : Bool
  deriving DecidableEq, Repr

/-- The answer of the operating system to `syscall.Kill(pid, sig)`, which may
depend on every earlier call. -/
abbrev Kernel := List KillEvent → Int → Signal → Bool

/-- `syscall.Kill(pid, sig)`: whether it succeeded, and the log with the call
appended. -/
def kill (k : Kernel) (log : List KillEvent) (pid : Int) (sig : Signal) :
    Bool × List KillEvent :=
  (k log pid sig, log ++ [⟨pid, sig, k log pid sig⟩])

/-- `stopProcess`: the first component is `err != nil`. -/
def stopProcess (k : Kernel) (log : List KillEvent) (pid : Int) : Bool × List KillEvent :=
  if pid = 0 then (false, log)
  else ((kill k log pid .SIGTSTP).1.not, (kill k log pid .SIGTSTP).2)

/-- `resumeProcess`: the first component is `err != nil`. -/
def resumeProcess (k : Kernel) (log : List KillEvent) (pid : Int) : Bool × List KillEvent :=
  if pid = 0 then (false, log)
  else ((kill k log pid .SIGCONT).1.not, (kill k log pid .SIGCONT).2)

/-- `exitProcess`: the first component is `err != nil`. -/
def exitProcess (k : Kernel) (log : List KillEvent) (pid : Int) : Bool × List KillEvent :=
  if pid = 0 then (false, log)
  else ((kill k log pid .SIGTERM).1.not, (kill k log pid .SIGTERM).2)

/-- The per-child goroutines of `Stop` and `Resume`: the dispatcher runs once
for every pid of the list, in the given order; an error is logged and
dropped. The completion channel has room for every child, so no goroutine
waits. -/
def fanOut (dispatch : List KillEvent → Int → Bool × List KillEvent) :
    List KillEvent → List Int → List KillEvent
  | log, [] => log
  | log, child :: rest => fanOut dispatch (dispatch log child).2 rest

/-- The result of a tree operation: `err != nil`, the receiver after the
call, and the log of signals. -/
structure Reply where
  err : Bool
  proc : Process
  log : List KillEvent
  deriving DecidableEq, Repr

/-! ## Tree operations -/

/-- `Process.Stop`. The root signal of the calling goroutine is placed before
the work of the discovery goroutine, and the children are signalled in the
order `sched.deliveries` picks.

The discovery goroutine sends on `childrencomplete` only after discovery has
succeeded and every child has been signalled. When the root signal fails the
caller returns the error without receiving from that channel; what the
goroutine does is then still part of the result (`Children` and the child
signals). When the root signal succeeds the caller sets `State` and receives
from `childrencomplete`: if discovery returned an error or never returns,
nobody sends, and the caller waits forever. -/
def Stop (sched : Sched) (k : Kernel) (snapshot : Option (List PsProcess))
    (p : Process) (log : List KillEvent) : Outcome Reply :=
  if p.Pid = 0 then .returned ⟨false, p, log⟩
  else if p.State = .Stopped then .returned ⟨false, p, log⟩
  else
    let root := stopProcess k log p.Pid
    match GetChildrenRecursive sched snapshot p with
    | .returned d =>
      if d.err then
        if root.1 then .returned ⟨true, p, root.2⟩ else .blocked
      else
        let log2 := fanOut (stopProcess k) root.2 (sched.deliveries d.children)
        if root.1 then .returned ⟨true, d.proc, log2⟩
        else .returned ⟨false, { d.proc with State := .Stopped }, log2⟩
    | .blocked => if root.1 then .returned ⟨true, p, root.2⟩ else .blocked
    | .fuelOut => .fuelOut

/-- `Process.Resume`. It starts no discovery and its completion channel has
room for every child, so it always returns. -/
def Resume (sched : Sched) (k : Kernel) (p : Process) (log : List KillEvent) : Reply :=
  if p.Pid = 0 then ⟨false, p, log⟩
  else if p.State = .Running then ⟨false, p, log⟩
  else
    let root := resumeProcess k log p.Pid
    if root.1 then ⟨true, p, root.2⟩
    else
      ⟨false, { p with State := .Running },
        fanOut (resumeProcess k) root.2 (sched.deliveries p.Children)⟩

/-- `Process.Exit`. -/
def Exit (k : Kernel) (p : Process) (log : List KillEvent) : Reply :=
  if p.Pid = 0 then ⟨false, p, log⟩
  else ⟨(exitProcess k log p.Pid).1, p, (exitProcess k log p.Pid).2⟩

/-! ## The control loop -/

/-- What the environment answers during one iteration of the loop of
`Checker`. -/
structure Tick where
  /-- Whether `syscall.Kill(pid, 0)` in `pidExists` returns nil. -/
  alive : Bool
  /-- Whether `cmd.Run()` of the check command returns an error. -/
  checkFails : Bool
  /-- The result of `ps.Processes()`, should `Stop` be called. -/
  snapshot : Option (List PsProcess)
  /-- The scheduling of the goroutines of this iteration. -/
  sched : Sched
  /-- The reading of `time.Now()` that may become `failureTime`. -/
  nowMark : Int
  /-- The reading of `time.Now()` inside `time.Since(failureTime)`. -/
  nowSince : Int

/-- `Process.PidExists`, given the answer of `syscall.Kill(pid, 0)`. -/
def PidExists (p : Process) (alive : Bool) : Bool :=
  if p.Pid = 0 then false else alive

/-- `Process.Check`: `err != nil`, given whether running the check command
fails. -/
def Check (p : Process) (cmdFails : Bool) : Bool :=
  if p.Pid = 0 then false
  else if p.CheckCommand = "" then false
  else cmdFails

/-- The state of the loop of `Checker`: the receiver, the local
`failureTime` (`none` is the zero time), the signals sent, the number of
calls of `Check`, and for every completed iteration whether it called
`Exit`. -/
structure Loop where
  proc : Process
  failureTime : Option Int
  log : List KillEvent
  checks : Nat
  exits : List Bool
  deriving DecidableEq, Repr

/-- How one iteration ends: the loop goes on, `Checker` returns, or one of
the two ways a call to `Stop` fails to return. -/
inductive Step
  | next (s : Loop)
  | finished (s : Loop)
  | blocked
  | fuelOut
  deriving DecidableEq, Repr

/-- The body of the loop of `Checker` (source lines 110-142). -/
def checkerIteration (k : Kernel) (s : Loop) (t : Tick) : Step :=
  if PidExists s.proc t.alive = false then .finished s
  else if Check s.proc t.checkFails then
    match (if s.proc.State = .Running then Stop t.sched k t.snapshot s.proc s.log
           else .returned ⟨false, s.proc, s.log⟩) with
    | .blocked => .blocked
    | .fuelOut => .fuelOut
    | .returned r =>
      let failureTime := match s.failureTime with
        | none => t.nowMark
        | some f => f
      if 0 < r.proc.CheckTimeout ∧ r.proc.CheckTimeout < t.nowSince - failureTime then
        .next ⟨(Exit k r.proc r.log).proc, some failureTime, (Exit k r.proc r.log).log,
          s.checks + 1, s.exits ++ [true]⟩
      else
        .next ⟨r.proc, some failureTime, r.log, s.checks + 1, s.exits ++ [false]⟩
  else if s.proc.State = .Stopped then
    .next ⟨(Resume t.sched k s.proc s.log).proc, none, (Resume t.sched k s.proc s.log).log,
      s.checks + 1, s.exits ++ [false]⟩
  else
    .next ⟨s.proc, s.failureTime, s.log, s.checks + 1, s.exits ++ [false]⟩

/-- How a run of `Checker` over finitely many iterations ends: it returned,
it is still in the loop when the iterations given are used up, or it is stuck
in a call to `Stop`. -/
inductive Run
  | returned (s : Loop)
  | looping (s : Loop)
  | blocked
  | fuelOut
  deriving DecidableEq, Repr

/-- The loop of `Checker` over the iterations `ticks`. -/
def checkerLoop (k : Kernel) : Loop → List Tick → Run
  | s, [] => .looping s
  | s, t :: ts =>
    match checkerIteration k s t with
    | .next s1 => checkerLoop k s1 ts
    | .finished s1 => .returned s1
    | .blocked => .blocked
    | .fuelOut => .fuelOut

/-- `Process.Checker`, started with the signal log `log`. -/
def Checker (k : Kernel) (p : Process) (log : List KillEvent) (ticks : List Tick) : Run :=
  if p.CheckCommand = "" then .returned ⟨p, none, log, 0, []⟩
  else checkerLoop k ⟨p, none, log, 0, []⟩ ticks

/-! ## Sequences of tree operations -/

/-- A call of one of the three tree operations, with what the environment
answers during it. -/
inductive Op
  | stop (sched : Sched) (snapshot : Option (List PsProcess))
  | resume (sched : Sched)
  | exit

/-- One tree operation on the receiver `p`. -/
def runOp (k : Kernel) (p : Process) (log : List KillEvent) : Op → Outcome Reply
  | .stop sched snapshot => Stop sched k snapshot p log
  | .resume sched => .returned (Resume sched k p log)
  | .exit => .returned (Exit k p log)

/-- The calls `ops` one after the other on the same receiver; a call that
does not return ends the sequence. -/
def runOps (k : Kernel) : Process → List KillEvent → List Op → Outcome (Process × List KillEvent)
  | p, log, [] => .returned (p, log)
  | p, log, op :: ops =>
    match runOp k p log op with
    | .returned r => runOps k r.proc r.log ops
    | .blocked => .blocked
    | .fuelOut => .fuelOut

/-! ## Descendants, as the specification words them and as the code finds them,
and the invariants of the level loop -/

/-- The transitive descendants of `root` in a snapshot: a pid from which a
chain of one or more parent links of the snapshot leads to `root`. -/
inductive IsDescendant (list : List PsProcess) (root : Int) : Int → Prop
  | child {x : Int} : (⟨x, root⟩ : PsProcess) ∈ list → IsDescendant list root x
  | step {x y : Int} : IsDescendant list root y → (⟨x, y⟩ : PsProcess) ∈ list →
      IsDescendant list root x

/-- The descendants of `root` that are linked to it by a chain of parent
links none of whose parents is pid 0. -/
inductive Reaches (list : List PsProcess) (root : Int) : Int → Prop
  | child {x : Int} : root ≠ 0 → (⟨x, root⟩ : PsProcess) ∈ list → Reaches list root x
  | step {x y : Int} : Reaches list root y → y ≠ 0 → (⟨x, y⟩ : PsProcess) ∈ list →
      Reaches list root x

/-- The pids at depth `k` below `root`: depth 0 are the children of `root`,
depth `k + 1` the children of a non-zero pid at depth `k`. -/
inductive AtDepth (list : List PsProcess) (root : Int) : Nat → Int → Prop
  | child {x : Int} : root ≠ 0 → (⟨x, root⟩ : PsProcess) ∈ list → AtDepth list root 0 x
  | step {k : Nat} {x y : Int} : AtDepth list root k y → y ≠ 0 →
      (⟨x, y⟩ : PsProcess) ∈ list → AtDepth list root (k + 1) x

/-- What a level needs in order not to wait forever: its pids are pairwise
distinct, none was checked before, and there are at most `numWorkers`. -/
def LevelOk (checked new : List Int) : Prop :=
  new.Nodup ∧ (∀ x ∈ new, x ∉ checked) ∧ new.length ≤ numWorkers

/-- The invariant of the level loop behind the results on the returned list. -/
def DiscInv (list : List PsProcess) (root : Int) (checked new all : List Int) : Prop :=
  checked.Nodup ∧ root ∈ checked ∧ checked ++ new = root :: all ∧
  (∀ x ∈ all, Reaches list root x) ∧
  (∀ x, root ≠ 0 → (⟨x, root⟩ : PsProcess) ∈ list → x ∈ all) ∧
  (∀ y ∈ all, y ∈ new ∨ ∀ x, y ≠ 0 → (⟨x, y⟩ : PsProcess) ∈ list → x ∈ all)

/-- A snapshot on which discovery from `root` finds a tree with levels the
worker pool can hold: every pid is listed once, the root is not below
itself, and no depth holds more than `numWorkers` pids. -/
structure TreeLike (list : List PsProcess) (root : Int) : Prop where
  pids_nodup : (list.map (fun proc => proc.pid)).Nodup
  root_not_below : ¬ Reaches list root root
  width : ∀ (k : Nat) (S : List Int), S.Nodup → (∀ x ∈ S, AtDepth list root k x) →
    S.length ≤ numWorkers

/-- The invariant of the level loop on a tree-like snapshot, at depth `k`. -/
def TreeInv (list : List PsProcess) (root : Int) (k : Nat) (checked new : List Int) : Prop :=
  LevelOk checked new ∧ (∀ x ∈ new, AtDepth list root k x) ∧
  (∀ x, x ∈ checked ∨ x ∈ new → x = root ∨ ∃ c ∈ checked, (⟨x, c⟩ : PsProcess) ∈ list)

/-- The common shape of the three dispatchers. -/
def sendSignal (k : Kernel) (sig : Signal) (log : List KillEvent) (pid : Int) :
    Bool × List KillEvent :=
  if pid = 0 then (false, log)
  else ((kill k log pid sig).1.not, (kill k log pid sig).2)

/-- The pids whose children discovery from `root` looks up: the root and
every pid linked to it through non-zero parents. -/
def Found (list : List PsProcess) (root y : Int) : Prop :=
  y = root ∨ Reaches list root y

/-- Discovery from `root` meets the pid `x` twice: `x` is listed twice as a
child of one pid it looks up, or as a child of two different pids it looks
up. -/
def MetTwice (list : List PsProcess) (root x : Int) : Prop :=
  (∃ y, Found list root y ∧ 2 ≤ (getChildren list y).count x) ∨
  (∃ y1 y2, y1 ≠ y2 ∧ Found list root y1 ∧ Found list root y2 ∧
    x ∈ getChildren list y1 ∧ x ∈ getChildren list y2)

/-! ## Predicates on logs and configurations -/

/-- The root was paused during the calls that took the log from `log0` to
`log1`: a pause signal was delivered to `root`, and no resume signal was
delivered to it afterwards. -/
def RootPaused (log0 log1 : List KillEvent) (root : Int) : Prop :=
  ∃ pre post, log1 = log0 ++ pre ++ ⟨root, .SIGTSTP, true⟩ :: post ∧
    ∀ e ∈ post, ¬ (e.pid = root ∧ e.sig = .SIGCONT ∧ e.ok = true)

/-- The invariant of a sequence of tree operations started with the log
`log0` on a process with pid `root`. -/
def SeqInv (log0 : List KillEvent) (root : Int) (q : Process) (cur : List KillEvent) : Prop :=
  q.Pid = root ∧ (∃ ext, cur = log0 ++ ext) ∧ (q.State = .Stopped → RootPaused log0 cur root)

/-- The two processes agree on what the loop reads of the configuration: the
pid, the check command and the timeout. -/
def SameConfig (p q : Process) : Prop :=
  q.Pid = p.Pid ∧ q.CheckCommand = p.CheckCommand ∧ q.CheckTimeout = p.CheckTimeout

/-! ## Example inputs -/

/-- A process under supervision: pid 1, a check every second, a timeout of
three seconds. -/
def exampleProcess : Process :=
  ⟨"sleep 100", 1, [], "/bin/false", 0, 1000000000, 3000000000, .Running⟩

/-- A snapshot in which pid 1 has the children 2 and 3 and the grandchild 4;
pid 9 belongs to another tree. -/
def exampleSnapshot : List PsProcess := [⟨2, 1⟩, ⟨3, 1⟩, ⟨4, 2⟩, ⟨9, 8⟩]

/-- A snapshot in which pid 0 is a child of pid 1 and has the child 5. -/
def zeroSnapshot : List PsProcess := [⟨0, 1⟩, ⟨5, 0⟩]

/-- A snapshot with a cycle of parent links: 2 is a child of 1 and 1 a child
of 2. -/
def cycleSnapshot : List PsProcess := [⟨2, 1⟩, ⟨1, 2⟩]

/-- A snapshot in which pid 1 has the eleven children 2, ..., 12. -/
def wideSnapshot : List PsProcess :=
  [⟨2, 1⟩, ⟨3, 1⟩, ⟨4, 1⟩, ⟨5, 1⟩, ⟨6, 1⟩, ⟨7, 1⟩, ⟨8, 1⟩, ⟨9, 1⟩, ⟨10, 1⟩, ⟨11, 1⟩, ⟨12, 1⟩]

/-- A snapshot in which pid 4 is listed as a child of pid 2 and as a child of
pid 3, both children of pid 1. -/
def sharedSnapshot : List PsProcess := [⟨2, 1⟩, ⟨3, 1⟩, ⟨4, 2⟩, ⟨4, 3⟩]

/-- A snapshot in which pid 2 is listed twice as a child of pid 1. -/
def twiceSnapshot : List PsProcess := [⟨2, 1⟩, ⟨2, 1⟩]

/-- The kernel under which every delivery succeeds. -/
def allDelivered : Kernel := fun _ _ _ => true

/-- The kernel under which pid 3 no longer exists. -/
def threeGone : Kernel := fun _ pid _ => decide (pid ≠ 3)

/-- The kernel that delivers every signal but the resume signal. -/
def noResume : Kernel := fun _ _ sig => decide (sig ≠ .SIGCONT)

/-- The process of `exampleProcess`, stopped, with the children 2, 3, 4. -/
def stoppedProcess : Process :=
  { exampleProcess with Children := [2, 3, 4], State := .Stopped }

/-- The iteration of the loop at clock reading `now`, with the root pid
alive, the check failing and `exampleSnapshot` as the process snapshot. -/
def failingTick (now : Int) : Tick := ⟨true, true, some exampleSnapshot, Sched.fifo, now, now⟩

/-- The iteration of the loop at clock reading `now`, with the root pid
alive and the check passing. -/
def passingTick (now : Int) : Tick := ⟨true, false, some exampleSnapshot, Sched.fifo, now, now⟩

/-- Six iterations one second apart, the check failing in each. -/
def failingTicks : List Tick :=
  [failingTick 0, failingTick 1000000000, failingTick 2000000000, failingTick 3000000000,
    failingTick 4000000000, failingTick 5000000000]

/-- A process attached to by pid, with no check command. -/
def attachedProcess : Process := ⟨"", 4242, [7], "", 0, 5000000000, 0, .Running⟩

/-! ## Lemmas on discovery -/

theorem containsInt_iff (s : List Int) (e : Int) : containsInt s e = true ↔ e ∈ s := by
  induction s with
  | nil => simp [containsInt]
  | cons a s ih =>
    unfold containsInt
    by_cases h : a = e
    · simp [h]
    · simp [h, ih, Ne.symm h]

theorem mem_getChildren {list : List PsProcess} {pid x : Int} :
    x ∈ getChildren list pid ↔ pid ≠ 0 ∧ (⟨x, pid⟩ : PsProcess) ∈ list := by
  unfold getChildren
  by_cases h : pid = 0
  · simp [h]
  · simp only [h, if_false, List.mem_map, List.mem_filter, decide_eq_true_eq, ne_eq,
      not_false_eq_true, true_and]
    constructor
    · rintro ⟨proc, ⟨hm, hp⟩, hx⟩
      cases proc
      simp only at hp hx
      subst hp hx
      exact hm
    · intro hm
      exact ⟨⟨x, pid⟩, ⟨hm, rfl⟩, rfl⟩

theorem queuePids_length_le (checked new : List Int) :
    (queuePids checked new).2.length ≤ new.length := by
  induction new generalizing checked with
  | nil => simp [queuePids]
  | cons c rest ih =>
    unfold queuePids
    split
    · exact Nat.le_succ_of_le (ih checked)
    · simpa using ih (checked ++ [c])

theorem queuePids_full_iff (checked new : List Int) :
    (queuePids checked new).2.length = new.length ↔
      new.Nodup ∧ ∀ x ∈ new, x ∉ checked := by
  induction new generalizing checked with
  | nil => simp [queuePids]
  | cons c rest ih =>
    unfold queuePids
    by_cases hc : containsInt checked c = true
    · simp only [hc, if_true]
      have hle := queuePids_length_le checked rest
      have hmem := (containsInt_iff checked c).1 hc
      constructor
      · intro h
        simp only [List.length_cons] at h
        omega
      · rintro ⟨-, h⟩
        exact absurd hmem (h c (List.mem_cons_self c rest))
    · have hnot : c ∉ checked := fun h => hc ((containsInt_iff checked c).2 h)
      simp only [hc, Bool.false_eq_true, if_false, List.length_cons,
        Nat.add_right_cancel_iff, ih (checked ++ [c]), List.nodup_cons]
      constructor
      · rintro ⟨hnd, hall⟩
        refine ⟨⟨fun hin => hall c hin (by simp), hnd⟩, ?_⟩
        intro x hx hxc
        rcases List.mem_cons.1 hx with h | h
        · exact hnot (h ▸ hxc)
        · exact hall x h (by simp [hxc])
      · rintro ⟨⟨hcr, hnd⟩, hall⟩
        refine ⟨hnd, ?_⟩
        intro x hx hor
        rcases List.mem_append.1 hor with h | h
        · exact hall x (List.mem_cons_of_mem c hx) h
        · exact hcr ((List.mem_singleton.1 h) ▸ hx)

theorem queuePids_of_full (checked new : List Int) (hnd : new.Nodup)
    (hdisj : ∀ x ∈ new, x ∉ checked) : queuePids checked new = (checked ++ new, new) := by
  induction new generalizing checked with
  | nil => simp [queuePids]
  | cons c rest ih =>
    unfold queuePids
    have hnot : containsInt checked c = false := by
      cases hcc : containsInt checked c with
      | false => rfl
      | true => exact absurd ((containsInt_iff checked c).1 hcc) (hdisj c (List.mem_cons_self c rest))
    have hnd2 := List.nodup_cons.1 hnd
    have hrest : ∀ x ∈ rest, x ∉ checked ++ [c] := by
      intro x hx hin
      rcases List.mem_append.1 hin with h | h
      · exact hdisj x (List.mem_cons_of_mem c hx) h
      · exact hnd2.1 ((List.mem_singleton.1 h) ▸ hx)
    simp [hnot, ih (checked ++ [c]) hnd2.2 hrest]

theorem levelLoop_nil (sched : Sched) (list : List PsProcess) (fuel : Nat)
    (checked all : List Int) : levelLoop sched list fuel checked [] all = .returned all := by
  cases fuel <;> rfl

theorem levelLoop_succ_ok (sched : Sched) (list : List PsProcess) (fuel : Nat)
    (checked new all : List Int) (hne : new ≠ []) (hok : LevelOk checked new) :
    levelLoop sched list (fuel + 1) checked new all =
      levelLoop sched list fuel (checked ++ new)
        (sched.batches (new.map (getChildren list))).flatten
        (all ++ (sched.batches (new.map (getChildren list))).flatten) := by
  cases new with
  | nil => exact absurd rfl hne
  | cons c rest =>
    obtain ⟨hnd, hdisj, hlen⟩ := hok
    simp only [levelLoop, queuePids_of_full checked (c :: rest) hnd hdisj]
    rw [if_neg (by omega), if_neg (by omega)]

theorem levelLoop_succ_blocked (sched : Sched) (list : List PsProcess) (fuel : Nat)
    (checked new all : List Int) (hne : new ≠ []) (hbad : ¬ LevelOk checked new) :
    levelLoop sched list (fuel + 1) checked new all = .blocked := by
  cases new with
  | nil => exact absurd rfl hne
  | cons c rest =>
    simp only [levelLoop]
    by_cases h1 : numWorkers < (queuePids checked (c :: rest)).2.length
    · rw [if_pos h1]
    · rw [if_neg h1]
      by_cases h2 : (queuePids checked (c :: rest)).2.length < (c :: rest).length
      · rw [if_pos h2]
      · exfalso
        apply hbad
        have hle := queuePids_length_le checked (c :: rest)
        have heq : (queuePids checked (c :: rest)).2.length = (c :: rest).length := by omega
        have hfull := (queuePids_full_iff checked (c :: rest)).1 heq
        exact ⟨hfull.1, hfull.2, by omega⟩

theorem levelLoop_zero_cons (sched : Sched) (list : List PsProcess)
    (checked new all : List Int) (hne : new ≠ []) :
    levelLoop sched list 0 checked new all = .fuelOut := by
  cases new with
  | nil => exact absurd rfl hne
  | cons c rest => rfl

/-- The pids of the next level: the children of the pids of this one. -/
theorem mem_nextLevel (sched : Sched) (list : List PsProcess) (new : List Int) (x : Int) :
    x ∈ (sched.batches (new.map (getChildren list))).flatten ↔
      ∃ y ∈ new, y ≠ 0 ∧ (⟨x, y⟩ : PsProcess) ∈ list := by
  rw [(List.Perm.flatten (sched.batches_perm (new.map (getChildren list)))).mem_iff]
  simp only [List.mem_flatten, List.mem_map]
  constructor
  · rintro ⟨l, ⟨y, hy, rfl⟩, hx⟩
    exact ⟨y, hy, mem_getChildren.1 hx⟩
  · rintro ⟨y, hy, hx⟩
    exact ⟨getChildren list y, ⟨y, hy, rfl⟩, mem_getChildren.2 hx⟩

/-- Invariant rule for the level loop: a property of `checked`,
`newchildren`, `allchildren` that every completed level keeps holds when the
loop returns. -/
theorem levelLoop_returned_inv (sched : Sched) (list : List PsProcess)
    (P : List Int → List Int → List Int → Prop)
    (hstep : ∀ checked new all, P checked new all → new ≠ [] → LevelOk checked new →
      P (checked ++ new) (sched.batches (new.map (getChildren list))).flatten
        (all ++ (sched.batches (new.map (getChildren list))).flatten)) :
    ∀ (fuel : Nat) (checked new all res : List Int), P checked new all →
      levelLoop sched list fuel checked new all = .returned res →
      ∃ checked1, P checked1 [] res := by
  intro fuel
  induction fuel with
  | zero =>
    intro checked new all res hP hres
    by_cases hne : new = []
    · subst hne
      rw [levelLoop_nil] at hres
      cases hres
      exact ⟨checked, hP⟩
    · rw [levelLoop_zero_cons sched list checked new all hne] at hres
      cases hres
  | succ fuel ih =>
    intro checked new all res hP hres
    by_cases hne : new = []
    · subst hne
      rw [levelLoop_nil] at hres
      cases hres
      exact ⟨checked, hP⟩
    · by_cases hok : LevelOk checked new
      · rw [levelLoop_succ_ok sched list fuel checked new all hne hok] at hres
        exact ih _ _ _ res (hstep checked new all hP hne hok) hres
      · rw [levelLoop_succ_blocked sched list fuel checked new all hne hok] at hres
        cases hres

theorem DiscInv_init (list : List PsProcess) (root : Int) :
    DiscInv list root [root] (getChildren list root) (getChildren list root) := by
  refine ⟨List.nodup_singleton root, List.mem_singleton_self root, rfl, ?_, ?_, ?_⟩
  · intro x hx
    have h := mem_getChildren.1 hx
    exact Reaches.child h.1 h.2
  · intro x h0 hx
    exact mem_getChildren.2 ⟨h0, hx⟩
  · intro y hy
    exact Or.inl hy

theorem DiscInv_step (sched : Sched) (list : List PsProcess) (root : Int)
    (checked new all : List Int) (hinv : DiscInv list root checked new all)
    (hok : LevelOk checked new) :
    DiscInv list root (checked ++ new) (sched.batches (new.map (getChildren list))).flatten
      (all ++ (sched.batches (new.map (getChildren list))).flatten) := by
  obtain ⟨hnd, hrc, heq, hsound, hroot, hclosed⟩ := hinv
  obtain ⟨hnew, hdisj, -⟩ := hok
  have hsub : ∀ y ∈ new, y ∈ all := by
    intro y hy
    have : y ∈ root :: all := heq ▸ List.mem_append_right checked hy
    rcases List.mem_cons.1 this with h | h
    · exact absurd (h ▸ hrc) (hdisj y hy)
    · exact h
  refine ⟨?_, List.mem_append_left _ hrc, ?_, ?_, ?_, ?_⟩
  · exact List.Nodup.append hnd hnew (fun x hx hx2 => hdisj x hx2 hx)
  · rw [List.append_assoc, ← List.cons_append, ← heq, List.append_assoc]
  · intro x hx
    rcases List.mem_append.1 hx with h | h
    · exact hsound x h
    · obtain ⟨y, hy, hy0, hxy⟩ := (mem_nextLevel sched list new x).1 h
      exact Reaches.step (hsound y (hsub y hy)) hy0 hxy
  · intro x h0 hx
    exact List.mem_append_left _ (hroot x h0 hx)
  · intro y hy
    rcases List.mem_append.1 hy with h | h
    · right
      intro x hy0 hxy
      rcases hclosed y h with hn | hc
      · exact List.mem_append_right _ ((mem_nextLevel sched list new x).2 ⟨y, hn, hy0, hxy⟩)
      · exact List.mem_append_left _ (hc x hy0 hxy)
    · exact Or.inl h

/-- What the level loop returns when started as `GetChildrenRecursive` starts
it: a duplicate-free list without the root that holds exactly the pids
linked to the root through non-zero parents. -/
theorem levelLoop_returned_spec (sched : Sched) (list : List PsProcess) (root : Int)
    (fuel : Nat) (res : List Int)
    (hres : levelLoop sched list fuel [root] (getChildren list root) (getChildren list root)
      = .returned res) :
    res.Nodup ∧ root ∉ res ∧ ∀ x, x ∈ res ↔ Reaches list root x := by
  obtain ⟨checked1, hnd, -, heq, hsound, hroot, hclosed⟩ :=
    levelLoop_returned_inv sched list (DiscInv list root)
      (fun checked new all hP _ hok => DiscInv_step sched list root checked new all hP hok)
      fuel [root] (getChildren list root) (getChildren list root) res
      (DiscInv_init list root) hres
  rw [List.append_nil] at heq
  rw [heq] at hnd
  have hnd2 := List.nodup_cons.1 hnd
  refine ⟨hnd2.2, hnd2.1, fun x => ⟨hsound x, ?_⟩⟩
  intro hx
  induction hx with
  | child h0 hm => exact hroot _ h0 hm
  | step _ hy0 hm ih =>
    rcases hclosed _ ih with h | h
    · exact absurd h (List.not_mem_nil _)
    · exact h _ hy0 hm

/-- What the level loop returns holds, up to order, the children of the root
and of every pid it returns, each child as often as the snapshot lists it. -/
theorem levelLoop_returned_perm (sched : Sched) (list : List PsProcess) (root : Int)
    (fuel : Nat) (res : List Int)
    (hres : levelLoop sched list fuel [root] (getChildren list root) (getChildren list root)
      = .returned res) :
    res.Perm ((root :: res).map (getChildren list)).flatten := by
  obtain ⟨checked1, ⟨-, -, heq, -⟩, hperm⟩ :=
    levelLoop_returned_inv sched list
      (fun checked new all => DiscInv list root checked new all ∧
        all.Perm (checked.map (getChildren list)).flatten)
      (fun checked new all hP _ hok => by
        refine ⟨DiscInv_step sched list root checked new all hP.1 hok, ?_⟩
        rw [List.map_append, List.flatten_append]
        exact List.Perm.append hP.2
          (List.Perm.flatten (sched.batches_perm (new.map (getChildren list)))))
      fuel [root] (getChildren list root) (getChildren list root) res
      ⟨DiscInv_init list root, by simp⟩ hres
  rw [List.append_nil] at heq
  rw [heq] at hperm
  exact hperm

/-- The bound on the number of levels is never reached: the checked pids are
pairwise distinct and each of them is the root or a pid of the snapshot. -/
theorem levelLoop_fuel (sched : Sched) (list : List PsProcess) (root : Int) :
    ∀ (fuel : Nat) (checked new all : List Int), checked.Nodup →
      (∀ x ∈ checked, x ∈ root :: list.map (fun proc => proc.pid)) →
      (∀ x ∈ new, x ∈ list.map (fun proc => proc.pid)) →
      list.length + 2 ≤ fuel + checked.length →
      levelLoop sched list fuel checked new all ≠ .fuelOut := by
  intro fuel
  induction fuel with
  | zero =>
    intro checked new all hnd hsub _ hlen
    have h1 := (List.subperm_of_subset hnd hsub).length_le
    simp only [List.length_cons, List.length_map] at h1
    omega
  | succ fuel ih =>
    intro checked new all hnd hsub hnew hlen
    by_cases hne : new = []
    · subst hne
      rw [levelLoop_nil]
      exact fun h => by cases h
    · by_cases hok : LevelOk checked new
      · rw [levelLoop_succ_ok sched list fuel checked new all hne hok]
        apply ih
        · exact List.Nodup.append hnd hok.1 (fun x hx hx2 => hok.2.1 x hx2 hx)
        · intro x hx
          rcases List.mem_append.1 hx with h | h
          · exact hsub x h
          · exact List.mem_cons_of_mem _ (hnew x h)
        · intro x hx
          obtain ⟨y, -, -, hxy⟩ := (mem_nextLevel sched list new x).1 hx
          exact List.mem_map.2 ⟨⟨x, y⟩, hxy, rfl⟩
        · have : 0 < new.length := List.length_pos.2 hne
          simp only [List.length_append]
          omega
      · rw [levelLoop_succ_blocked sched list fuel checked new all hne hok]
        exact fun h => by cases h

theorem GetChildrenRecursive_ne_fuelOut (sched : Sched) (snapshot : Option (List PsProcess))
    (p : Process) : GetChildrenRecursive sched snapshot p ≠ .fuelOut := by
  unfold GetChildrenRecursive
  by_cases h0 : p.Pid = 0
  · rw [if_pos h0]
    exact fun h => by cases h
  · rw [if_neg h0]
    cases snapshot with
    | none => exact fun h => by cases h
    | some list =>
      have hf := levelLoop_fuel sched list p.Pid (list.length + 1) [p.Pid]
        (getChildren list p.Pid) (getChildren list p.Pid) (List.nodup_singleton _)
        (fun x hx => by
          rw [List.mem_singleton.1 hx]
          exact List.mem_cons_self _ _)
        (fun x hx => List.mem_map.2 ⟨⟨x, p.Pid⟩, (mem_getChildren.1 hx).2, rfl⟩)
        (by simp)
      simp only
      cases hl : levelLoop sched list (list.length + 1) [p.Pid] (getChildren list p.Pid)
          (getChildren list p.Pid) with
      | returned all => exact fun h => by cases h
      | blocked => exact fun h => by cases h
      | fuelOut => exact absurd hl hf

/-- The three ways in which `GetChildrenRecursive` returns. -/
theorem GetChildrenRecursive_returned (sched : Sched) (snapshot : Option (List PsProcess))
    (p : Process) (d : Discovered) (h : GetChildrenRecursive sched snapshot p = .returned d) :
    (p.Pid = 0 ∧ d = ⟨[], false, p⟩) ∨
    (p.Pid ≠ 0 ∧ snapshot = none ∧ d = ⟨[], true, p⟩) ∨
    (p.Pid ≠ 0 ∧ ∃ list, snapshot = some list ∧
      levelLoop sched list (list.length + 1) [p.Pid] (getChildren list p.Pid)
        (getChildren list p.Pid) = .returned d.children ∧
      d = ⟨d.children, false, { p with Children := d.children }⟩) := by
  unfold GetChildrenRecursive at h
  by_cases h0 : p.Pid = 0
  · rw [if_pos h0] at h
    cases h
    exact Or.inl ⟨h0, rfl⟩
  · rw [if_neg h0] at h
    right
    cases snapshot with
    | none =>
      cases h
      exact Or.inl ⟨h0, rfl, rfl⟩
    | some list =>
      right
      refine ⟨h0, list, rfl, ?_⟩
      simp only at h
      cases hl : levelLoop sched list (list.length + 1) [p.Pid] (getChildren list p.Pid)
          (getChildren list p.Pid) with
      | returned all =>
        rw [hl] at h
        cases h
        exact ⟨rfl, rfl⟩
      | blocked => rw [hl] at h; cases h
      | fuelOut => rw [hl] at h; cases h

/-- The list `GetChildrenRecursive` returns has no pid twice and does not
hold the pid of the receiver, unless that pid is 0. -/
theorem GetChildrenRecursive_nodup_aux (sched : Sched) (snapshot : Option (List PsProcess))
    (p : Process) (d : Discovered) (h : GetChildrenRecursive sched snapshot p = .returned d) :
    d.children.Nodup ∧ p.Pid ∉ d.children := by
  rcases GetChildrenRecursive_returned sched snapshot p d h with
    ⟨-, rfl⟩ | ⟨-, -, rfl⟩ | ⟨-, list, -, hl, -⟩
  · exact ⟨List.nodup_nil, List.not_mem_nil _⟩
  · exact ⟨List.nodup_nil, List.not_mem_nil _⟩
  · have := levelLoop_returned_spec sched list p.Pid _ d.children hl
    exact ⟨this.1, this.2.1⟩

theorem AtDepth.reaches {list : List PsProcess} {root : Int} {k : Nat} {x : Int}
    (h : AtDepth list root k x) : Reaches list root x := by
  induction h with
  | child h0 hm => exact Reaches.child h0 hm
  | step _ hy0 hm ih => exact Reaches.step ih hy0 hm

theorem parent_unique {list : List PsProcess} (hnd : (list.map (fun proc => proc.pid)).Nodup)
    {x a b : Int} (ha : (⟨x, a⟩ : PsProcess) ∈ list) (hb : (⟨x, b⟩ : PsProcess) ∈ list) :
    a = b := by
  have h := List.inj_on_of_nodup_map hnd ha hb rfl
  injection h

theorem getChildren_nodup {list : List PsProcess}
    (hnd : (list.map (fun proc => proc.pid)).Nodup) (pid : Int) :
    (getChildren list pid).Nodup := by
  unfold getChildren
  split
  · exact List.nodup_nil
  · exact List.Nodup.sublist (List.Sublist.map _ (List.filter_sublist list)) hnd

theorem nextLevel_nodup (sched : Sched) {list : List PsProcess}
    (hnd : (list.map (fun proc => proc.pid)).Nodup) {new : List Int} (hnew : new.Nodup) :
    (sched.batches (new.map (getChildren list))).flatten.Nodup := by
  rw [(List.Perm.flatten (sched.batches_perm (new.map (getChildren list)))).nodup_iff,
    List.nodup_flatten]
  constructor
  · intro l hl
    obtain ⟨y, -, rfl⟩ := List.mem_map.1 hl
    exact getChildren_nodup hnd y
  · rw [List.pairwise_map]
    apply List.Nodup.pairwise_of_forall_ne hnew
    intro a _ b _ hab x hxa hxb
    exact hab (parent_unique hnd (mem_getChildren.1 hxa).2 (mem_getChildren.1 hxb).2)

theorem TreeInv_init {list : List PsProcess} {root : Int} (ht : TreeLike list root) :
    TreeInv list root 0 [root] (getChildren list root) := by
  have hdepth : ∀ x ∈ getChildren list root, AtDepth list root 0 x := fun x hx =>
    AtDepth.child (mem_getChildren.1 hx).1 (mem_getChildren.1 hx).2
  have hnd := getChildren_nodup ht.pids_nodup root
  refine ⟨⟨hnd, ?_, ht.width 0 _ hnd hdepth⟩, hdepth, ?_⟩
  · intro x hx hin
    rw [List.mem_singleton.1 hin] at hx
    exact ht.root_not_below (hdepth root hx).reaches
  · intro x hx
    rcases hx with h | h
    · exact Or.inl (List.mem_singleton.1 h)
    · exact Or.inr ⟨root, List.mem_singleton_self root, (mem_getChildren.1 h).2⟩

theorem TreeInv_step (sched : Sched) {list : List PsProcess} {root : Int}
    (ht : TreeLike list root) {k : Nat} {checked new : List Int}
    (hinv : TreeInv list root k checked new) :
    TreeInv list root (k + 1) (checked ++ new)
      (sched.batches (new.map (getChildren list))).flatten := by
  obtain ⟨⟨hnew, hdisj, -⟩, hdepth, hpar⟩ := hinv
  have hdepth2 : ∀ x ∈ (sched.batches (new.map (getChildren list))).flatten,
      AtDepth list root (k + 1) x := by
    intro x hx
    obtain ⟨y, hy, hy0, hxy⟩ := (mem_nextLevel sched list new x).1 hx
    exact AtDepth.step (hdepth y hy) hy0 hxy
  have hnd2 := nextLevel_nodup sched ht.pids_nodup hnew
  refine ⟨⟨hnd2, ?_, ht.width (k + 1) _ hnd2 hdepth2⟩, hdepth2, ?_⟩
  · intro x hx hin
    obtain ⟨y, hy, -, hxy⟩ := (mem_nextLevel sched list new x).1 hx
    rcases hpar x (List.mem_append.1 hin) with h | ⟨c, hc, hxc⟩
    · rw [h] at hx
      exact ht.root_not_below (hdepth2 root hx).reaches
    · have : c = y := parent_unique ht.pids_nodup hxc hxy
      exact hdisj y hy (this ▸ hc)
  · intro x hx
    rcases hx with h | h
    · rcases hpar x (List.mem_append.1 h) with h2 | ⟨c, hc, hxc⟩
      · exact Or.inl h2
      · exact Or.inr ⟨c, List.mem_append_left _ hc, hxc⟩
    · obtain ⟨y, hy, -, hxy⟩ := (mem_nextLevel sched list new x).1 h
      exact Or.inr ⟨y, List.mem_append_right _ hy, hxy⟩

/-- On a tree-like snapshot no level of the loop waits forever. -/
theorem levelLoop_ne_blocked (sched : Sched) {list : List PsProcess} {root : Int}
    (ht : TreeLike list root) :
    ∀ (fuel k : Nat) (checked new all : List Int), TreeInv list root k checked new →
      levelLoop sched list fuel checked new all ≠ .blocked := by
  intro fuel
  induction fuel with
  | zero =>
    intro k checked new all _
    by_cases hne : new = []
    · subst hne
      rw [levelLoop_nil]
      exact fun h => by cases h
    · rw [levelLoop_zero_cons sched list checked new all hne]
      exact fun h => by cases h
  | succ fuel ih =>
    intro k checked new all hinv
    by_cases hne : new = []
    · subst hne
      rw [levelLoop_nil]
      exact fun h => by cases h
    · rw [levelLoop_succ_ok sched list fuel checked new all hne hinv.1]
      exact ih (k + 1) _ _ _ (TreeInv_step sched ht hinv)

/-- On a tree-like snapshot `GetChildrenRecursive` returns without error. -/
theorem GetChildrenRecursive_returns (sched : Sched) (list : List PsProcess) (p : Process)
    (h0 : p.Pid ≠ 0) (ht : TreeLike list p.Pid) :
    ∃ l, GetChildrenRecursive sched (some list) p =
      .returned ⟨l, false, { p with Children := l }⟩ := by
  have hb := levelLoop_ne_blocked sched ht (list.length + 1) 0 [p.Pid]
    (getChildren list p.Pid) (getChildren list p.Pid) (TreeInv_init ht)
  have hf := GetChildrenRecursive_ne_fuelOut sched (some list) p
  unfold GetChildrenRecursive at hf ⊢
  rw [if_neg h0] at hf ⊢
  simp only at hf ⊢
  cases hl : levelLoop sched list (list.length + 1) [p.Pid] (getChildren list p.Pid)
      (getChildren list p.Pid) with
  | returned all => exact ⟨all, rfl⟩
  | blocked => exact absurd hl hb
  | fuelOut => rw [hl] at hf; exact absurd rfl hf

/-! ## Lemmas on signal dispatch and the tree operations -/

theorem stopProcess_eq (k : Kernel) : stopProcess k = sendSignal k .SIGTSTP := rfl

theorem resumeProcess_eq (k : Kernel) : resumeProcess k = sendSignal k .SIGCONT := rfl

theorem exitProcess_eq (k : Kernel) : exitProcess k = sendSignal k .SIGTERM := rfl

theorem sendSignal_zero (k : Kernel) (sig : Signal) (log : List KillEvent) :
    sendSignal k sig log 0 = (false, log) := by
  simp [sendSignal]

theorem sendSignal_ne_zero (k : Kernel) (sig : Signal) (log : List KillEvent) {pid : Int}
    (h : pid ≠ 0) :
    sendSignal k sig log pid = ((k log pid sig).not, log ++ [⟨pid, sig, k log pid sig⟩]) := by
  simp [sendSignal, kill, h]

/-- A batch appends to the log one call of `syscall.Kill` for every non-zero
pid of the list, whatever the earlier calls of the batch returned, and
nothing else. -/
theorem fanOut_log (k : Kernel) (sig : Signal) :
    ∀ (cs : List Int) (log : List KillEvent), ∃ ext,
      fanOut (sendSignal k sig) log cs = log ++ ext ∧
      (∀ e ∈ ext, e.sig = sig ∧ e.pid ∈ cs ∧ e.pid ≠ 0 ∧ ∃ pre, e.ok = k pre e.pid e.sig) ∧
      (∀ c ∈ cs, c ≠ 0 → ∃ e ∈ ext, e.pid = c ∧ e.sig = sig) := by
  intro cs
  induction cs with
  | nil =>
    intro log
    exact ⟨[], by simp [fanOut], by simp, by simp⟩
  | cons c rest ih =>
    intro log
    by_cases hc : c = 0
    · obtain ⟨ext, heq, hev, hall⟩ := ih log
      refine ⟨ext, ?_, ?_, ?_⟩
      · simp only [fanOut, hc, sendSignal_zero]
        exact heq
      · intro e he
        obtain ⟨h1, h2, h3, h4⟩ := hev e he
        exact ⟨h1, List.mem_cons_of_mem c h2, h3, h4⟩
      · intro x hx hx0
        rcases List.mem_cons.1 hx with h | h
        · exact absurd (h.trans hc) hx0
        · exact hall x h hx0
    · obtain ⟨ext, heq, hev, hall⟩ := ih (log ++ [⟨c, sig, k log c sig⟩])
      refine ⟨⟨c, sig, k log c sig⟩ :: ext, ?_, ?_, ?_⟩
      · simp only [fanOut, sendSignal_ne_zero k sig log hc]
        rw [heq, List.append_assoc, List.singleton_append]
      · intro e he
        rcases List.mem_cons.1 he with h | h
        · subst h
          exact ⟨rfl, List.mem_cons_self c rest, hc, log, rfl⟩
        · obtain ⟨h1, h2, h3, h4⟩ := hev e h
          exact ⟨h1, List.mem_cons_of_mem c h2, h3, h4⟩
      · intro x hx hx0
        rcases List.mem_cons.1 hx with h | h
        · exact ⟨⟨c, sig, k log c sig⟩, List.mem_cons_self _ _, h.symm, rfl⟩
        · obtain ⟨e, he, h1, h2⟩ := hall x h hx0
          exact ⟨e, List.mem_cons_of_mem _ he, h1, h2⟩

/-- The batch of `Stop` or `Resume` under a scheduler: as `fanOut_log`, for
the pids of the list in any order. -/
theorem fanOut_sched_log (sched : Sched) (k : Kernel) (sig : Signal) (cs : List Int)
    (log : List KillEvent) : ∃ ext,
      fanOut (sendSignal k sig) log (sched.deliveries cs) = log ++ ext ∧
      (∀ e ∈ ext, e.sig = sig ∧ e.pid ∈ cs ∧ e.pid ≠ 0 ∧ ∃ pre, e.ok = k pre e.pid e.sig) ∧
      (∀ c ∈ cs, c ≠ 0 → ∃ e ∈ ext, e.pid = c ∧ e.sig = sig) := by
  obtain ⟨ext, heq, hev, hall⟩ := fanOut_log k sig (sched.deliveries cs) log
  refine ⟨ext, heq, ?_, ?_⟩
  · intro e he
    obtain ⟨h1, h2, h3, h4⟩ := hev e he
    exact ⟨h1, (sched.deliveries_perm cs).mem_iff.1 h2, h3, h4⟩
  · intro c hc hc0
    exact hall c ((sched.deliveries_perm cs).mem_iff.2 hc) hc0

theorem Stop_ne_fuelOut (sched : Sched) (k : Kernel) (snapshot : Option (List PsProcess))
    (p : Process) (log : List KillEvent) : Stop sched k snapshot p log ≠ .fuelOut := by
  unfold Stop
  have hf := GetChildrenRecursive_ne_fuelOut sched snapshot p
  split
  · exact fun h => by cases h
  · split
    · exact fun h => by cases h
    · cases hd : GetChildrenRecursive sched snapshot p with
      | returned d =>
        simp only
        split <;> split <;> exact fun h => by cases h
      | blocked =>
        simp only
        split <;> exact fun h => by cases h
      | fuelOut => exact absurd hd hf

theorem checkerIteration_ne_fuelOut (k : Kernel) (s : Loop) (t : Tick) :
    checkerIteration k s t ≠ .fuelOut := by
  intro hit
  unfold checkerIteration at hit
  by_cases h1 : PidExists s.proc t.alive = false
  · rw [if_pos h1] at hit
    cases hit
  · rw [if_neg h1] at hit
    by_cases h2 : Check s.proc t.checkFails = true
    · rw [if_pos h2] at hit
      have key : ∀ o : Outcome Reply, o ≠ .fuelOut →
          (match o with
            | .blocked => Step.blocked
            | .fuelOut => Step.fuelOut
            | .returned r =>
              let failureTime := match s.failureTime with
                | none => t.nowMark
                | some f => f
              if 0 < r.proc.CheckTimeout ∧ r.proc.CheckTimeout < t.nowSince - failureTime then
                .next ⟨(Exit k r.proc r.log).proc, some failureTime, (Exit k r.proc r.log).log,
                  s.checks + 1, s.exits ++ [true]⟩
              else
                .next ⟨r.proc, some failureTime, r.log, s.checks + 1, s.exits ++ [false]⟩)
            ≠ Step.fuelOut := by
        intro o ho
        cases o with
        | fuelOut => exact absurd rfl ho
        | blocked => exact fun h => by cases h
        | returned r =>
          simp only
          split <;> exact fun h => by cases h
      refine key _ ?_ hit
      split
      · exact Stop_ne_fuelOut _ _ _ _ _
      · exact fun h => by cases h
    · rw [if_neg h2] at hit
      split at hit <;> cases hit

theorem checkerLoop_ne_fuelOut (k : Kernel) :
    ∀ (ticks : List Tick) (s : Loop), checkerLoop k s ticks ≠ .fuelOut := by
  intro ticks
  induction ticks with
  | nil =>
    intro s h
    simp only [checkerLoop] at h
    cases h
  | cons t ts ih =>
    intro s h
    simp only [checkerLoop] at h
    cases hit : checkerIteration k s t with
    | next s1 => rw [hit] at h; exact ih s1 h
    | finished s1 => rw [hit] at h; cases h
    | blocked => rw [hit] at h; cases h
    | fuelOut => exact checkerIteration_ne_fuelOut k s t hit

theorem runOps_ne_fuelOut (k : Kernel) :
    ∀ (ops : List Op) (p : Process) (log : List KillEvent), runOps k p log ops ≠ .fuelOut := by
  intro ops
  induction ops with
  | nil =>
    intro p log h
    simp only [runOps] at h
    cases h
  | cons op ops ih =>
    intro p log h
    simp only [runOps] at h
    cases hop : runOp k p log op with
    | returned r => rw [hop] at h; exact ih r.proc r.log h
    | blocked => rw [hop] at h; cases h
    | fuelOut =>
      cases op with
      | stop sched snapshot => exact Stop_ne_fuelOut sched k snapshot p log hop
      | resume sched => cases hop
      | exit => cases hop

/-- `Stop` on a running process with a non-zero pid, when the root signal is
delivered and discovery returns a list: it returns success, the state is
`Stopped`, `Children` is the list, and the log grows by the root signal and
the batch. -/
theorem Stop_ok (sched : Sched) (k : Kernel) (snapshot : Option (List PsProcess))
    (p : Process) (log : List KillEvent) (d : Discovered)
    (hpid : p.Pid ≠ 0) (hrun : p.State = .Running)
    (hd : GetChildrenRecursive sched snapshot p = .returned d) (herr : d.err = false)
    (hroot : k log p.Pid .SIGTSTP = true) :
    Stop sched k snapshot p log = .returned ⟨false, { d.proc with State := .Stopped },
      fanOut (sendSignal k .SIGTSTP) (log ++ [⟨p.Pid, .SIGTSTP, true⟩])
        (sched.deliveries d.children)⟩ := by
  unfold Stop
  have hs : p.State ≠ .Stopped := by rw [hrun]; exact fun h => by cases h
  rw [if_neg hpid, if_neg hs, hd]
  simp only [herr, stopProcess_eq, sendSignal_ne_zero k .SIGTSTP log hpid, hroot,
    Bool.not_true, Bool.false_eq_true, if_false]

/-- `Resume` on a stopped process with a non-zero pid when the root signal is
delivered. -/
theorem Resume_ok (sched : Sched) (k : Kernel) (p : Process) (log : List KillEvent)
    (hpid : p.Pid ≠ 0) (hst : p.State = .Stopped) (hroot : k log p.Pid .SIGCONT = true) :
    Resume sched k p log = ⟨false, { p with State := .Running },
      fanOut (sendSignal k .SIGCONT) (log ++ [⟨p.Pid, .SIGCONT, true⟩])
        (sched.deliveries p.Children)⟩ := by
  unfold Resume
  have hs : p.State ≠ .Running := by rw [hst]; exact fun h => by cases h
  rw [if_neg hpid, if_neg hs]
  simp only [resumeProcess_eq, sendSignal_ne_zero k .SIGCONT log hpid, hroot,
    Bool.not_true, Bool.false_eq_true, if_false]

/-! ## Discovery: the claims -/

/-- A snapshot with at most `numWorkers` entries, each pid listed once and
the root not below itself, is tree-like. -/
theorem TreeLike.of_small {list : List PsProcess} {root : Int}
    (hnd : (list.map (fun proc => proc.pid)).Nodup) (hroot : ¬ Reaches list root root)
    (hlen : list.length ≤ numWorkers) : TreeLike list root := by
  refine ⟨hnd, hroot, ?_⟩
  intro k S hS hdepth
  have hsub : ∀ x ∈ S, x ∈ list.map (fun proc => proc.pid) := by
    intro x hx
    cases hdepth x hx with
    | child _ hm => exact List.mem_map.2 ⟨_, hm, rfl⟩
    | step _ _ hm => exact List.mem_map.2 ⟨_, hm, rfl⟩
  have h1 := (List.subperm_of_subset hS hsub).length_le
  simp only [List.length_map] at h1
  omega

/-- Every pid linked to the root through non-zero parents has a larger pid
than the root when every entry of the snapshot has a larger pid than its
parent. -/
theorem Reaches.lt_of_increasing {list : List PsProcess} {root x : Int}
    (hinc : ∀ proc ∈ list, proc.ppid < proc.pid) (h : Reaches list root x) : root < x := by
  induction h with
  | child _ hm => exact hinc _ hm
  | step _ _ hm ih => exact lt_trans ih (hinc _ hm)

/-- C1 (amended): for every snapshot, every root pid other than 0 and every
scheduling of the workers, whenever `GetChildrenRecursive` returns, it
returns without error a list that holds a pid if and only if a chain of one
or more parent links of the snapshot, none of whose parents is pid 0, leads
from that pid to the root, and `Children` of the receiver is set to that same
list; and it does return when the snapshot is tree-like (each pid listed
once, the root not below itself, at most `numWorkers` pids at every depth).
The bound on the number of levels in the model never cuts a call short. -/
theorem GetChildrenRecursive_reaches (sched : Sched) (list : List PsProcess) (p : Process)
    (hpid : p.Pid ≠ 0) :
    (∀ d, GetChildrenRecursive sched (some list) p = .returned d →
      d.err = false ∧ (∀ x, x ∈ d.children ↔ Reaches list p.Pid x) ∧
      d.proc = { p with Children := d.children }) ∧
    (TreeLike list p.Pid → ∃ d, GetChildrenRecursive sched (some list) p = .returned d) ∧
    GetChildrenRecursive sched (some list) p ≠ .fuelOut := by
  refine ⟨?_, ?_, GetChildrenRecursive_ne_fuelOut sched (some list) p⟩
  · intro d hd
    rcases GetChildrenRecursive_returned sched (some list) p d hd with
      ⟨h0, -⟩ | ⟨-, hn, -⟩ | ⟨-, list1, hs, hl, hdd⟩
    · exact absurd h0 hpid
    · cases hn
    · cases hs
      have hspec := levelLoop_returned_spec sched list p.Pid _ d.children hl
      refine ⟨?_, hspec.2.2, ?_⟩
      · rw [hdd]
      · rw [hdd]
  · intro ht
    obtain ⟨l, hl⟩ := GetChildrenRecursive_returns sched list p hpid ht
    exact ⟨_, hl⟩

/-- C1, the amended claim at a concrete input: in `exampleSnapshot` the call
for pid 1 returns, and what it returns are the pids below pid 1. -/
theorem GetChildrenRecursive_reaches_witness :
    ∃ d, GetChildrenRecursive Sched.lifo (some exampleSnapshot) exampleProcess = .returned d ∧
      d.err = false ∧ (∀ x, x ∈ d.children ↔ Reaches exampleSnapshot 1 x) ∧
      d.proc = { exampleProcess with Children := d.children } := by
  have h := GetChildrenRecursive_reaches Sched.lifo exampleSnapshot exampleProcess (by decide)
  have ht : TreeLike exampleSnapshot exampleProcess.Pid :=
    TreeLike.of_small (by decide)
      (fun hr => lt_irrefl _ (Reaches.lt_of_increasing (by decide) hr)) (by decide)
  obtain ⟨d, hd⟩ := h.2.1 ht
  exact ⟨d, hd, h.1 d hd⟩

/-- C1, as stated, fails: in `zeroSnapshot` pid 5 is a transitive descendant
of pid 1 (its parent is 0, whose parent is 1), yet the list returned for
pid 1 is `[0]`; and in `wideSnapshot` pid 2 is a child of pid 1, yet the call
for pid 1 returns no list at all. -/
theorem GetChildrenRecursive_not_all_descendants :
    (GetChildrenRecursive Sched.fifo (some zeroSnapshot) exampleProcess =
        .returned ⟨[0], false, { exampleProcess with Children := [0] }⟩ ∧
      IsDescendant zeroSnapshot 1 5 ∧ (5 : Int) ∉ [(0 : Int)]) ∧
    (GetChildrenRecursive Sched.fifo (some wideSnapshot) exampleProcess = .blocked ∧
      IsDescendant wideSnapshot 1 2) := by
  refine ⟨⟨by decide, ?_, by decide⟩, by decide, ?_⟩
  · exact IsDescendant.step (y := 0) (IsDescendant.child (by decide)) (by decide)
  · exact IsDescendant.child (by decide)

/-- C5 fails on the code: for a root pid other than 0, on every snapshot in
which discovery meets a pid twice (listed twice under one pid it looks up, or
under two different pids it looks up) `GetChildrenRecursive` returns no list
at all, under every scheduling: the repeated pid is skipped by the `checked`
test, and the drain loop waits forever for the batch of the skipped pid. So
the deduplication never yields a list; a returned list is duplicate-free
(`GetChildrenRecursive_nodup_aux`) only because no pid was met twice. -/
theorem GetChildrenRecursive_duplicate_blocked (sched : Sched) (list : List PsProcess)
    (p : Process) (x : Int) (hpid : p.Pid ≠ 0) (hdup : MetTwice list p.Pid x) :
    GetChildrenRecursive sched (some list) p = .blocked := by
  have hf := GetChildrenRecursive_ne_fuelOut sched (some list) p
  cases hres : GetChildrenRecursive sched (some list) p with
  | fuelOut => exact absurd hres hf
  | blocked => rfl
  | returned d =>
    exfalso
    rcases GetChildrenRecursive_returned sched (some list) p d hres with
      ⟨h0, -⟩ | ⟨-, hn, -⟩ | ⟨-, list1, hs, hl, -⟩
    · exact hpid h0
    · cases hn
    · cases hs
      have hspec := levelLoop_returned_spec sched list p.Pid _ d.children hl
      have hperm := levelLoop_returned_perm sched list p.Pid _ d.children hl
      have hfound : ∀ y, Found list p.Pid y → y ∈ p.Pid :: d.children := by
        intro y hy
        rcases hy with h | h
        · rw [h]
          exact List.mem_cons_self _ _
        · exact List.mem_cons_of_mem _ ((hspec.2.2 y).2 h)
      have hnd : (p.Pid :: d.children).Nodup := List.nodup_cons.2 ⟨hspec.2.1, hspec.1⟩
      have hflat := List.nodup_flatten.1 (hperm.nodup_iff.1 hspec.1)
      rcases hdup with ⟨y, hy, hcount⟩ | ⟨y1, y2, hne, hy1, hy2, hx1, hx2⟩
      · have h1 := hflat.1 (getChildren list y) (List.mem_map.2 ⟨y, hfound y hy, rfl⟩)
        have h2 := List.nodup_iff_count_le_one.1 h1 x
        omega
      · have hpw := List.pairwise_map.1 hflat.2
        have hsymm : Symmetric (fun a b : Int =>
            List.Disjoint (getChildren list a) (getChildren list b)) :=
          fun _ _ h => h.symm
        exact List.Pairwise.forall hsymm hpw (hfound y1 hy1) (hfound y2 hy2) hne hx1 hx2

/-- C5 at two failing inputs: in `sharedSnapshot` pid 4 is a child of 2 and
of 3, in `twiceSnapshot` pid 2 is listed twice under pid 1; the call for
pid 1 blocks on both. -/
theorem GetChildrenRecursive_duplicate_blocked_witness :
    GetChildrenRecursive Sched.fifo (some sharedSnapshot) exampleProcess = .blocked ∧
    GetChildrenRecursive Sched.lifo (some twiceSnapshot) exampleProcess = .blocked :=
  ⟨GetChildrenRecursive_duplicate_blocked Sched.fifo sharedSnapshot exampleProcess 4
      (by decide)
      (Or.inr ⟨2, 3, by decide,
        Or.inr (Reaches.child (by decide) (by decide)),
        Or.inr (Reaches.child (by decide) (by decide)), by decide, by decide⟩),
    GetChildrenRecursive_duplicate_blocked Sched.lifo twiceSnapshot exampleProcess 2
      (by decide) (Or.inl ⟨1, Or.inl rfl, by decide⟩)⟩

/-- C10 fails on the code: for a root pid other than 0, `GetChildrenRecursive`
never returns (the calling goroutine waits on a channel forever, under every
scheduling) when a chain of parent links through non-zero pids leads from the
root back to the root, and when the root has more than `numWorkers`
children. -/
theorem GetChildrenRecursive_blocked (sched : Sched) (list : List PsProcess) (p : Process)
    (hpid : p.Pid ≠ 0)
    (hbad : Reaches list p.Pid p.Pid ∨ numWorkers < (getChildren list p.Pid).length) :
    GetChildrenRecursive sched (some list) p = .blocked := by
  have hf := GetChildrenRecursive_ne_fuelOut sched (some list) p
  cases hres : GetChildrenRecursive sched (some list) p with
  | fuelOut => exact absurd hres hf
  | blocked => rfl
  | returned d =>
    exfalso
    rcases GetChildrenRecursive_returned sched (some list) p d hres with
      ⟨h0, -⟩ | ⟨-, hn, -⟩ | ⟨-, list1, hs, hl, -⟩
    · exact hpid h0
    · cases hn
    · cases hs
      rcases hbad with hcyc | hwide
      · have hspec := levelLoop_returned_spec sched list p.Pid _ d.children hl
        exact hspec.2.1 ((hspec.2.2 p.Pid).2 hcyc)
      · have hne : getChildren list p.Pid ≠ [] := by
          intro h
          rw [h] at hwide
          exact absurd hwide (by decide)
        rw [levelLoop_succ_blocked sched list list.length [p.Pid] _ _ hne
          (fun hok => absurd hok.2.2 (by omega))] at hl
        cases hl

/-- C10 at the two failing inputs: with the cycle of `cycleSnapshot` and with
the eleven children of `wideSnapshot` the call for pid 1 blocks. -/
theorem GetChildrenRecursive_blocked_witness :
    GetChildrenRecursive Sched.lifo (some cycleSnapshot) exampleProcess = .blocked ∧
    GetChildrenRecursive Sched.lifo (some wideSnapshot) exampleProcess = .blocked :=
  ⟨GetChildrenRecursive_blocked Sched.lifo cycleSnapshot exampleProcess (by decide)
      (Or.inl (Reaches.step (y := 2) (Reaches.child (by decide) (by decide)) (by decide)
        (by decide))),
    GetChildrenRecursive_blocked Sched.lifo wideSnapshot exampleProcess (by decide)
      (Or.inr (by decide))⟩

/-! ## Tree operations: the claims -/

/-- The receiver discovery hands back has the pid and state it had, and the
returned list as `Children` when there was no error and the pid is not 0. -/
theorem GetChildrenRecursive_proc (sched : Sched) (snapshot : Option (List PsProcess))
    (p : Process) (d : Discovered) (h : GetChildrenRecursive sched snapshot p = .returned d) :
    d.proc.Pid = p.Pid ∧ d.proc.State = p.State ∧
      (p.Pid ≠ 0 → d.err = false → d.proc.Children = d.children) := by
  rcases GetChildrenRecursive_returned sched snapshot p d h with
    ⟨h0, rfl⟩ | ⟨-, -, rfl⟩ | ⟨-, list, -, -, hdd⟩
  · exact ⟨rfl, rfl, fun hp => absurd h0 hp⟩
  · exact ⟨rfl, rfl, fun _ he => by cases he⟩
  · rw [hdd]
    exact ⟨rfl, rfl, fun _ _ => rfl⟩

/-- The two ways in which `Stop` returns: without a change of state, having
sent nothing but pause signals of which none reached the root; or with a
delivered root pause, the state `Stopped`, discovery completed, and the batch
of pause signals behind the root signal. -/
theorem Stop_returned (sched : Sched) (k : Kernel) (snapshot : Option (List PsProcess))
    (p : Process) (log : List KillEvent) (r : Reply)
    (h : Stop sched k snapshot p log = .returned r) :
    (r.proc.Pid = p.Pid ∧ r.proc.State = p.State ∧
      (p.State = .Running → p.Pid ≠ 0 → r.err = true ∧ k log p.Pid .SIGTSTP = false) ∧
      ∃ ext, r.log = log ++ ext ∧ ∀ e ∈ ext, e.sig = .SIGTSTP) ∨
    (p.Pid ≠ 0 ∧ p.State = .Running ∧ k log p.Pid .SIGTSTP = true ∧
      ∃ d, GetChildrenRecursive sched snapshot p = .returned d ∧ d.err = false ∧
        r = ⟨false, { d.proc with State := .Stopped },
          fanOut (sendSignal k .SIGTSTP) (log ++ [⟨p.Pid, .SIGTSTP, true⟩])
            (sched.deliveries d.children)⟩) := by
  unfold Stop at h
  by_cases hpid : p.Pid = 0
  · rw [if_pos hpid] at h
    cases h
    exact Or.inl ⟨rfl, rfl, fun _ hp => absurd hpid hp, [], by simp, by simp⟩
  · rw [if_neg hpid] at h
    by_cases hst : p.State = .Stopped
    · rw [if_pos hst] at h
      cases h
      exact Or.inl ⟨rfl, rfl, fun hr => absurd (hr.symm.trans hst) (by decide), [], by simp,
        by simp⟩
    · rw [if_neg hst] at h
      have hrun : p.State = .Running := by
        cases hs : p.State with
        | Running => rfl
        | Stopped => exact absurd hs hst
      rw [stopProcess_eq, sendSignal_ne_zero k .SIGTSTP log hpid] at h
      cases hk : k log p.Pid .SIGTSTP with
      | false =>
        left
        rw [hk] at h
        simp only [Bool.not_false, if_true] at h
        cases hd : GetChildrenRecursive sched snapshot p with
        | fuelOut => rw [hd] at h; cases h
        | blocked =>
          rw [hd] at h
          cases h
          exact ⟨rfl, rfl, fun _ _ => ⟨rfl, rfl⟩, [⟨p.Pid, .SIGTSTP, false⟩], rfl, by simp⟩
        | returned d =>
          rw [hd] at h
          have hproc := GetChildrenRecursive_proc sched snapshot p d hd
          by_cases he : d.err = true
          · simp only [he, if_true] at h
            cases h
            exact ⟨rfl, rfl, fun _ _ => ⟨rfl, rfl⟩, [⟨p.Pid, .SIGTSTP, false⟩], rfl, by simp⟩
          · simp only [he, Bool.false_eq_true, if_false] at h
            cases h
            obtain ⟨ext, heq, hev, -⟩ := fanOut_sched_log sched k .SIGTSTP d.children
              (log ++ [⟨p.Pid, .SIGTSTP, false⟩])
            refine ⟨hproc.1, hproc.2.1, fun _ _ => ⟨rfl, rfl⟩,
              ⟨p.Pid, .SIGTSTP, false⟩ :: ext, ?_, ?_⟩
            · simp only [stopProcess_eq, heq, List.append_assoc, List.singleton_append]
            · intro e he2
              rcases List.mem_cons.1 he2 with h1 | h1
              · rw [h1]
              · exact (hev e h1).1
      | true =>
        right
        rw [hk] at h
        simp only [Bool.not_true, Bool.false_eq_true, if_false] at h
        refine ⟨hpid, hrun, rfl, ?_⟩
        cases hd : GetChildrenRecursive sched snapshot p with
        | fuelOut => rw [hd] at h; cases h
        | blocked => rw [hd] at h; cases h
        | returned d =>
          rw [hd] at h
          by_cases he : d.err = true
          · simp only [he, if_true] at h
            cases h
          · simp only [he, Bool.false_eq_true, if_false] at h
            cases h
            have he2 : d.err = false := by
              cases hde : d.err with
              | false => rfl
              | true => exact absurd hde he
            exact ⟨d, rfl, he2, rfl⟩

/-- `Resume` on a stopped process with a non-zero pid when the root signal is
not delivered: it returns the error and leaves the state. -/
theorem Resume_failed (sched : Sched) (k : Kernel) (p : Process) (log : List KillEvent)
    (hpid : p.Pid ≠ 0) (hst : p.State = .Stopped) (hroot : k log p.Pid .SIGCONT = false) :
    Resume sched k p log = ⟨true, p, log ++ [⟨p.Pid, .SIGCONT, false⟩]⟩ := by
  unfold Resume
  have hs : p.State ≠ .Running := by rw [hst]; exact fun h => by cases h
  rw [if_neg hpid, if_neg hs]
  simp only [resumeProcess_eq, sendSignal_ne_zero k .SIGCONT log hpid, hroot,
    Bool.not_false, if_true]

/-- What `Resume` does: it only appends to the log, and it returns with the
state `Running`, or it leaves the state as it was and has delivered no resume
signal to the root. -/
theorem Resume_effect (sched : Sched) (k : Kernel) (p : Process) (log : List KillEvent) :
    (Resume sched k p log).proc.Pid = p.Pid ∧ ∃ ext,
      (Resume sched k p log).log = log ++ ext ∧
      ((Resume sched k p log).proc.State = .Running ∨
        ((Resume sched k p log).proc.State = p.State ∧
          ∀ e ∈ ext, ¬ (e.pid = p.Pid ∧ e.sig = .SIGCONT ∧ e.ok = true))) := by
  by_cases hpid : p.Pid = 0
  · have h : Resume sched k p log = ⟨false, p, log⟩ := by
      unfold Resume
      rw [if_pos hpid]
    rw [h]
    exact ⟨rfl, [], by simp, Or.inr ⟨rfl, by simp⟩⟩
  · cases hst : p.State with
    | Running =>
      have h : Resume sched k p log = ⟨false, p, log⟩ := by
        unfold Resume
        rw [if_neg hpid, if_pos hst]
      rw [h]
      exact ⟨rfl, [], by simp, Or.inl hst⟩
    | Stopped =>
      cases hk : k log p.Pid .SIGCONT with
      | false =>
        rw [Resume_failed sched k p log hpid hst hk]
        refine ⟨rfl, [⟨p.Pid, .SIGCONT, false⟩], rfl, Or.inr ⟨hst, ?_⟩⟩
        intro e he hc
        rw [List.mem_singleton.1 he] at hc
        exact Bool.false_ne_true hc.2.2
      | true =>
        rw [Resume_ok sched k p log hpid hst hk]
        obtain ⟨ext, heq, -, -⟩ := fanOut_sched_log sched k .SIGCONT p.Children
          (log ++ [⟨p.Pid, .SIGCONT, true⟩])
        refine ⟨rfl, ⟨p.Pid, .SIGCONT, true⟩ :: ext, ?_, Or.inl rfl⟩
        simp only [heq, List.append_assoc, List.singleton_append]

/-- `Exit` changes nothing in the receiver and sends at most a terminate
signal. -/
theorem Exit_effect (k : Kernel) (p : Process) (log : List KillEvent) :
    (Exit k p log).proc = p ∧ ∃ ext, (Exit k p log).log = log ++ ext ∧
      ∀ e ∈ ext, e.sig = .SIGTERM := by
  unfold Exit
  by_cases hpid : p.Pid = 0
  · rw [if_pos hpid]
    exact ⟨rfl, [], by simp, by simp⟩
  · rw [if_neg hpid, exitProcess_eq, sendSignal_ne_zero k .SIGTERM log hpid]
    refine ⟨rfl, [⟨p.Pid, .SIGTERM, k log p.Pid .SIGTERM⟩], rfl, ?_⟩
    intro e he
    rw [List.mem_singleton.1 he]

/-- C2: for a running process with a non-zero root pid, when every signal
delivery succeeds and `Stop` returns success, the state is `Stopped`, and
`Resume` called next returns success with the state `Running` again; `Stop`
sent the pause signal to the root and to every (non-zero) pid of the
discovered list, and every pid it sent the pause signal to is sent the resume
signal by `Resume`, successfully. -/
theorem Stop_then_Resume (sched1 sched2 : Sched) (k : Kernel)
    (snapshot : Option (List PsProcess)) (p : Process) (log : List KillEvent) (r : Reply)
    (hk : ∀ l pid sig, k l pid sig = true) (hpid : p.Pid ≠ 0) (hrun : p.State = .Running)
    (hstop : Stop sched1 k snapshot p log = .returned r) (herr : r.err = false) :
    r.proc.State = .Stopped ∧
    (Resume sched2 k r.proc r.log).err = false ∧
    (Resume sched2 k r.proc r.log).proc.State = .Running ∧
    ∃ paused resumed, r.log = log ++ paused ∧
      (Resume sched2 k r.proc r.log).log = r.log ++ resumed ∧
      (∃ e ∈ paused, e.pid = p.Pid ∧ e.sig = .SIGTSTP) ∧
      (∀ c ∈ r.proc.Children, c ≠ 0 → ∃ e ∈ paused, e.pid = c ∧ e.sig = .SIGTSTP) ∧
      (∀ e ∈ paused, ∃ e2 ∈ resumed, e2.pid = e.pid ∧ e2.sig = .SIGCONT ∧ e2.ok = true) := by
  rcases Stop_returned sched1 k snapshot p log r hstop with
    ⟨-, -, hfail, -⟩ | ⟨-, -, -, d, hd, hde, hr⟩
  · rw [(hfail hrun hpid).1] at herr
    cases herr
  · have hproc := GetChildrenRecursive_proc sched1 snapshot p d hd
    have hq1 : r.proc.Pid = p.Pid := by rw [hr]; exact hproc.1
    have hq2 : r.proc.State = .Stopped := by rw [hr]
    have hq3 : r.proc.Children = d.children := by rw [hr]; exact hproc.2.2 hpid hde
    have hqpid : r.proc.Pid ≠ 0 := by rw [hq1]; exact hpid
    obtain ⟨ext1, heq1, hev1, hall1⟩ := fanOut_sched_log sched1 k .SIGTSTP d.children
      (log ++ [⟨p.Pid, .SIGTSTP, true⟩])
    obtain ⟨ext2, heq2, hev2, hall2⟩ := fanOut_sched_log sched2 k .SIGCONT r.proc.Children
      (r.log ++ [⟨r.proc.Pid, .SIGCONT, true⟩])
    have hres := Resume_ok sched2 k r.proc r.log hqpid hq2 (hk _ _ _)
    refine ⟨hq2, by rw [hres], by rw [hres], ⟨p.Pid, .SIGTSTP, true⟩ :: ext1,
      ⟨r.proc.Pid, .SIGCONT, true⟩ :: ext2, ?_, ?_, ?_, ?_, ?_⟩
    · rw [hr]
      simp only [heq1, List.append_assoc, List.singleton_append]
    · rw [hres]
      simp only [heq2, List.append_assoc, List.singleton_append]
    · exact ⟨_, List.mem_cons_self _ _, rfl, rfl⟩
    · intro c hc hc0
      obtain ⟨e, he, h1, h2⟩ := hall1 c (hq3 ▸ hc) hc0
      exact ⟨e, List.mem_cons_of_mem _ he, h1, h2⟩
    · intro e he
      rcases List.mem_cons.1 he with h | h
      · exact ⟨_, List.mem_cons_self _ _, by rw [h]; exact hq1, rfl, rfl⟩
      · obtain ⟨-, hmem, h0, -⟩ := hev1 e h
        obtain ⟨e2, he2, h1, h2⟩ := hall2 e.pid (hq3 ▸ hmem) h0
        obtain ⟨-, -, -, pre, hok⟩ := hev2 e2 he2
        exact ⟨e2, List.mem_cons_of_mem _ he2, h1, h2, by rw [hok]; exact hk _ _ _⟩

/-- C2 at a concrete input: `Stop` on `exampleProcess` in `exampleSnapshot`
with every delivery succeeding, then `Resume`. -/
theorem Stop_then_Resume_witness :
    ∃ r, Stop Sched.fifo allDelivered (some exampleSnapshot) exampleProcess [] = .returned r ∧
      r.proc.State = .Stopped ∧
      (Resume Sched.lifo allDelivered r.proc r.log).err = false ∧
      (Resume Sched.lifo allDelivered r.proc r.log).proc.State = .Running ∧
      ∃ paused resumed, r.log = [] ++ paused ∧
        (Resume Sched.lifo allDelivered r.proc r.log).log = r.log ++ resumed ∧
        (∃ e ∈ paused, e.pid = exampleProcess.Pid ∧ e.sig = .SIGTSTP) ∧
        (∀ c ∈ r.proc.Children, c ≠ 0 → ∃ e ∈ paused, e.pid = c ∧ e.sig = .SIGTSTP) ∧
        (∀ e ∈ paused, ∃ e2 ∈ resumed, e2.pid = e.pid ∧ e2.sig = .SIGCONT ∧ e2.ok = true) :=
  ⟨⟨false, { exampleProcess with Children := [2, 3, 4], State := .Stopped },
      [⟨1, .SIGTSTP, true⟩, ⟨2, .SIGTSTP, true⟩, ⟨3, .SIGTSTP, true⟩, ⟨4, .SIGTSTP, true⟩]⟩,
    by decide,
    Stop_then_Resume Sched.fifo Sched.lifo allDelivered (some exampleSnapshot) exampleProcess []
      _ (fun _ _ _ => rfl) (by decide) (by decide) (by decide) rfl⟩

/-- C6: a dispatcher returns an error for a non-zero pid whose delivery
fails; whatever deliveries to descendants fail, `Stop` (on a running process,
once discovery has returned the list and the root pause is delivered) and
`Resume` (on a stopped process, once the root resume is delivered) still call
`syscall.Kill` for every non-zero pid of the list and return success. -/
theorem batch_survives_failed_deliveries (sched1 sched2 : Sched) (k : Kernel)
    (snapshot : Option (List PsProcess)) (p : Process) (log : List KillEvent) (d : Discovered)
    (q : Process) (log2 : List KillEvent)
    (hpid : p.Pid ≠ 0) (hrun : p.State = .Running)
    (hd : GetChildrenRecursive sched1 snapshot p = .returned d) (herr : d.err = false)
    (hroot : k log p.Pid .SIGTSTP = true)
    (hqpid : q.Pid ≠ 0) (hq : q.State = .Stopped) (hqroot : k log2 q.Pid .SIGCONT = true) :
    (∀ l pid, pid ≠ 0 → k l pid .SIGTSTP = false → (stopProcess k l pid).1 = true) ∧
    (∀ l pid, pid ≠ 0 → k l pid .SIGCONT = false → (resumeProcess k l pid).1 = true) ∧
    (∃ r ext, Stop sched1 k snapshot p log = .returned r ∧ r.err = false ∧
      r.proc.State = .Stopped ∧ r.log = log ++ ⟨p.Pid, .SIGTSTP, true⟩ :: ext ∧
      ∀ c ∈ d.children, c ≠ 0 → ∃ e ∈ ext, e.pid = c ∧ e.sig = .SIGTSTP) ∧
    (∃ ext, (Resume sched2 k q log2).err = false ∧
      (Resume sched2 k q log2).proc.State = .Running ∧
      (Resume sched2 k q log2).log = log2 ++ ⟨q.Pid, .SIGCONT, true⟩ :: ext ∧
      ∀ c ∈ q.Children, c ≠ 0 → ∃ e ∈ ext, e.pid = c ∧ e.sig = .SIGCONT) := by
  refine ⟨?_, ?_, ?_, ?_⟩
  · intro l pid h0 hf
    rw [stopProcess_eq, sendSignal_ne_zero k .SIGTSTP l h0, hf]
    rfl
  · intro l pid h0 hf
    rw [resumeProcess_eq, sendSignal_ne_zero k .SIGCONT l h0, hf]
    rfl
  · obtain ⟨ext, heq, -, hall⟩ := fanOut_sched_log sched1 k .SIGTSTP d.children
      (log ++ [⟨p.Pid, .SIGTSTP, true⟩])
    refine ⟨_, ext, Stop_ok sched1 k snapshot p log d hpid hrun hd herr hroot, rfl, rfl, ?_,
      hall⟩
    simp only [heq, List.append_assoc, List.singleton_append]
  · obtain ⟨ext, heq, -, hall⟩ := fanOut_sched_log sched2 k .SIGCONT q.Children
      (log2 ++ [⟨q.Pid, .SIGCONT, true⟩])
    rw [Resume_ok sched2 k q log2 hqpid hq hqroot]
    refine ⟨ext, rfl, rfl, ?_, hall⟩
    simp only [heq, List.append_assoc, List.singleton_append]

/-- C6 at a concrete input: pid 3 no longer exists; `Stop` on
`exampleProcess` and `Resume` on `stoppedProcess` still signal 2 and 4. -/
theorem batch_survives_failed_deliveries_witness :
    (stopProcess threeGone [] 3).1 = true ∧ (resumeProcess threeGone [] 3).1 = true ∧
    Stop Sched.fifo threeGone (some exampleSnapshot) exampleProcess [] =
      .returned ⟨false, { exampleProcess with Children := [2, 3, 4], State := .Stopped },
        [⟨1, .SIGTSTP, true⟩, ⟨2, .SIGTSTP, true⟩, ⟨3, .SIGTSTP, false⟩,
          ⟨4, .SIGTSTP, true⟩]⟩ ∧
    Resume Sched.fifo threeGone stoppedProcess [] =
      ⟨false, { stoppedProcess with State := .Running },
        [⟨1, .SIGCONT, true⟩, ⟨2, .SIGCONT, true⟩, ⟨3, .SIGCONT, false⟩,
          ⟨4, .SIGCONT, true⟩]⟩ :=
  have h := batch_survives_failed_deliveries Sched.fifo Sched.fifo threeGone
    (some exampleSnapshot) exampleProcess []
    ⟨[2, 3, 4], false, { exampleProcess with Children := [2, 3, 4] }⟩ stoppedProcess []
    (by decide) (by decide) (by decide) rfl (by decide) (by decide) (by decide) (by decide)
  ⟨h.1 [] 3 (by decide) (by decide), h.2.1 [] 3 (by decide) (by decide), by decide, by decide⟩

/-- C9 fails on the code: when the process snapshot cannot be obtained and
the root pause is delivered, `Stop` on a running process with a non-zero pid
never returns (it waits on `childrencomplete`, on which the discovery
goroutine, having returned early, never sends), and so the loop of `Checker`
never reaches its next iteration, however many iterations would follow. -/
theorem Stop_blocked_on_discovery_error (sched : Sched) (k : Kernel) (p : Process)
    (log : List KillEvent) (hpid : p.Pid ≠ 0) (hrun : p.State = .Running)
    (hcmd : p.CheckCommand ≠ "") (hroot : k log p.Pid .SIGTSTP = true) :
    Stop sched k none p log = .blocked ∧
    ∀ (failureTime : Option Int) (checks : Nat) (exits : List Bool) (nowMark nowSince : Int)
      (rest : List Tick),
      checkerLoop k ⟨p, failureTime, log, checks, exits⟩
        (⟨true, true, none, sched, nowMark, nowSince⟩ :: rest) = .blocked := by
  have hstop : Stop sched k none p log = .blocked := by
    unfold Stop
    have hs : p.State ≠ .Stopped := by rw [hrun]; exact fun h => by cases h
    have hd : GetChildrenRecursive sched none p = .returned ⟨[], true, p⟩ := by
      unfold GetChildrenRecursive
      rw [if_neg hpid]
    rw [if_neg hpid, if_neg hs, hd]
    simp only [stopProcess_eq, sendSignal_ne_zero k .SIGTSTP log hpid, hroot,
      Bool.not_true, Bool.false_eq_true, if_false, if_true]
  refine ⟨hstop, ?_⟩
  intro failureTime checks exits nowMark nowSince rest
  simp only [checkerLoop, checkerIteration, PidExists, Check, hpid, hcmd, hrun, hstop,
    if_false, if_true, Bool.true_eq_false]

/-- C9 at a concrete input: `exampleProcess`, every delivery succeeding, the
snapshot failing. -/
theorem Stop_blocked_on_discovery_error_witness :
    Stop Sched.fifo allDelivered none exampleProcess [] = .blocked ∧
    checkerLoop allDelivered ⟨exampleProcess, none, [], 0, []⟩
      [⟨true, true, none, Sched.fifo, 5, 5⟩, ⟨true, false, some exampleSnapshot, Sched.fifo, 6, 6⟩]
      = .blocked :=
  have h := Stop_blocked_on_discovery_error Sched.fifo allDelivered exampleProcess []
    (by decide) (by decide) (by decide) rfl
  ⟨h.1, h.2 none 0 [] 5 5 _⟩

theorem RootPaused.extend {log0 cur : List KillEvent} {root : Int}
    (h : RootPaused log0 cur root) (ext : List KillEvent)
    (hext : ∀ e ∈ ext, ¬ (e.pid = root ∧ e.sig = .SIGCONT ∧ e.ok = true)) :
    RootPaused log0 (cur ++ ext) root := by
  obtain ⟨pre, post, heq, hpost⟩ := h
  refine ⟨pre, post ++ ext, ?_, ?_⟩
  · rw [heq, List.append_assoc, List.cons_append]
  · intro e he
    rcases List.mem_append.1 he with h1 | h1
    · exact hpost e h1
    · exact hext e h1

theorem runOp_inv (k : Kernel) (log0 : List KillEvent) (root : Int) (q : Process)
    (cur : List KillEvent) (op : Op) (r : Reply) (hinv : SeqInv log0 root q cur)
    (hop : runOp k q cur op = .returned r) : SeqInv log0 root r.proc r.log := by
  obtain ⟨hpid, ⟨ext0, hcur⟩, hpaused⟩ := hinv
  cases op with
  | stop sched snapshot =>
    rcases Stop_returned sched k snapshot q cur r hop with
      ⟨h1, h2, -, ext, hlog, hsig⟩ | ⟨-, -, -, d, hd, -, hr⟩
    · have hext : ∀ e ∈ ext, ¬ (e.pid = root ∧ e.sig = .SIGCONT ∧ e.ok = true) := by
        intro e he hc
        rw [hsig e he] at hc
        exact absurd hc.2.1 (by decide)
      refine ⟨h1.trans hpid, ⟨ext0 ++ ext, by rw [hlog, hcur, List.append_assoc]⟩, ?_⟩
      intro hs
      rw [hlog]
      exact (hpaused (h2 ▸ hs)).extend ext hext
    · have hproc := GetChildrenRecursive_proc sched snapshot q d hd
      obtain ⟨ext, heq, hev, -⟩ := fanOut_sched_log sched k .SIGTSTP d.children
        (cur ++ [⟨q.Pid, .SIGTSTP, true⟩])
      have hlog : r.log = log0 ++ ext0 ++ ⟨root, .SIGTSTP, true⟩ :: ext := by
        rw [hr]
        show fanOut _ _ _ = _
        rw [heq, hcur, hpid]
        simp only [List.append_assoc, List.singleton_append]
      refine ⟨by rw [hr]; exact hproc.1.trans hpid,
        ⟨ext0 ++ ⟨root, .SIGTSTP, true⟩ :: ext, by rw [hlog, List.append_assoc]⟩, ?_⟩
      intro _
      refine ⟨ext0, ext, hlog, ?_⟩
      intro e he hc
      rw [(hev e he).1] at hc
      exact absurd hc.2.1 (by decide)
  | resume sched =>
    cases hop
    obtain ⟨h1, ext, hlog, hcases⟩ := Resume_effect sched k q cur
    refine ⟨h1.trans hpid, ⟨ext0 ++ ext, by rw [hlog, hcur, List.append_assoc]⟩, ?_⟩
    intro hs
    rcases hcases with h | ⟨h2, hext⟩
    · rw [h] at hs
      cases hs
    · rw [hlog]
      exact (hpaused (h2 ▸ hs)).extend ext (hpid ▸ hext)
  | exit =>
    cases hop
    obtain ⟨h1, ext, hlog, hsig⟩ := Exit_effect k q cur
    have hext : ∀ e ∈ ext, ¬ (e.pid = root ∧ e.sig = .SIGCONT ∧ e.ok = true) := by
      intro e he hc
      rw [hsig e he] at hc
      exact absurd hc.2.1 (by decide)
    refine ⟨by rw [h1]; exact hpid, ⟨ext0 ++ ext, by rw [hlog, hcur, List.append_assoc]⟩, ?_⟩
    intro hs
    rw [hlog]
    rw [h1] at hs
    exact (hpaused hs).extend ext hext

theorem runOps_inv (k : Kernel) (log0 : List KillEvent) (root : Int) (ops : List Op) :
    ∀ (q : Process) (cur : List KillEvent) (q1 : Process) (log1 : List KillEvent),
      SeqInv log0 root q cur → runOps k q cur ops = .returned (q1, log1) →
      SeqInv log0 root q1 log1 := by
  induction ops with
  | nil =>
    intro q cur q1 log1 hinv hret
    simp only [runOps] at hret
    cases hret
    exact hinv
  | cons op ops ih =>
    intro q cur q1 log1 hinv hret
    simp only [runOps] at hret
    cases hop : runOp k q cur op with
    | returned r =>
      rw [hop] at hret
      exact ih r.proc r.log q1 log1 (runOp_inv k log0 root q cur op r hinv hop) hret
    | blocked => rw [hop] at hret; cases hret
    | fuelOut => rw [hop] at hret; cases hret

/-- C8: after every sequence of `Stop`, `Resume` and `Exit` calls on a
process that starts in state `Running`, under every pattern of delivery
successes and failures: if the state is `Stopped`, a pause signal was
delivered to the root pid during the sequence and no resume signal was
delivered to the root pid after it. Moreover `Stop` sets the state to
`Stopped` only when the root pause is delivered, a failed root pause leaves
the state unchanged, and so does a failed root resume. -/
theorem Stopped_only_after_root_pause (k : Kernel) (p : Process) (log : List KillEvent)
    (ops : List Op) (q : Process) (log1 : List KillEvent) (hrun : p.State = .Running)
    (hret : runOps k p log ops = .returned (q, log1)) :
    (q.Pid = p.Pid ∧ (q.State = .Stopped → ∃ pre post,
      log1 = log ++ pre ++ ⟨p.Pid, .SIGTSTP, true⟩ :: post ∧
      ∀ e ∈ post, ¬ (e.pid = p.Pid ∧ e.sig = .SIGCONT ∧ e.ok = true))) ∧
    (∀ sched snapshot r, Stop sched k snapshot p log = .returned r →
      (r.proc.State = .Stopped → p.Pid ≠ 0 ∧ k log p.Pid .SIGTSTP = true) ∧
      ((stopProcess k log p.Pid).1 = true → r.proc.State = p.State)) ∧
    (∀ sched (s : Process) l, (resumeProcess k l s.Pid).1 = true →
      (Resume sched k s l).proc.State = s.State) := by
  refine ⟨?_, ?_, ?_⟩
  · have hinit : SeqInv log p.Pid p log :=
      ⟨rfl, ⟨[], by simp⟩, fun hs => by rw [hrun] at hs; cases hs⟩
    have h := runOps_inv k log p.Pid ops p log q log1 hinit hret
    exact ⟨h.1, h.2.2⟩
  · intro sched snapshot r hstop
    rcases Stop_returned sched k snapshot p log r hstop with
      ⟨-, h2, -, -⟩ | ⟨h0, -, hk, d, -, -, hr⟩
    · refine ⟨fun hs => ?_, fun _ => h2⟩
      rw [h2, hrun] at hs
      cases hs
    · refine ⟨fun _ => ⟨h0, hk⟩, fun herr => ?_⟩
      rw [stopProcess_eq, sendSignal_ne_zero k .SIGTSTP log h0, hk] at herr
      cases herr
  · intro sched s l herr
    by_cases h0 : s.Pid = 0
    · rw [resumeProcess_eq, h0, sendSignal_zero] at herr
      cases herr
    · rw [resumeProcess_eq, sendSignal_ne_zero k .SIGCONT l h0] at herr
      have hk : k l s.Pid .SIGCONT = false := by
        cases hkk : k l s.Pid .SIGCONT with
        | false => rfl
        | true => rw [hkk] at herr; cases herr
      cases hst : s.State with
      | Running =>
        have h : Resume sched k s l = ⟨false, s, l⟩ := by
          unfold Resume
          rw [if_neg h0, if_pos hst]
        rw [h]
        exact hst
      | Stopped =>
        rw [Resume_failed sched k s l h0 hst hk]
        exact hst

/-- C8 at a concrete input: `Stop`, then a `Resume` whose root signal fails,
then `Exit`, on `exampleProcess`; the state is `Stopped` at the end, and the
root pause is the first signal of the log. -/
theorem Stopped_only_after_root_pause_witness :
    stoppedProcess.State = .Stopped ∧ ∃ pre post,
      [⟨1, .SIGTSTP, true⟩, ⟨2, .SIGTSTP, true⟩, ⟨3, .SIGTSTP, true⟩, ⟨4, .SIGTSTP, true⟩,
        ⟨1, .SIGCONT, false⟩, ⟨1, .SIGTERM, true⟩] =
        [] ++ pre ++ (⟨exampleProcess.Pid, .SIGTSTP, true⟩ : KillEvent) :: post ∧
      ∀ e ∈ post, ¬ (e.pid = exampleProcess.Pid ∧ e.sig = .SIGCONT ∧ e.ok = true) :=
  ⟨rfl, (Stopped_only_after_root_pause noResume exampleProcess []
    [.stop Sched.fifo (some exampleSnapshot), .resume Sched.fifo, .exit] stoppedProcess
    [⟨1, .SIGTSTP, true⟩, ⟨2, .SIGTSTP, true⟩, ⟨3, .SIGTSTP, true⟩, ⟨4, .SIGTSTP, true⟩,
      ⟨1, .SIGCONT, false⟩, ⟨1, .SIGTERM, true⟩] rfl (by decide)).1.2 rfl⟩

/-! ## The control loop: the claims -/

theorem SameConfig.refl (p : Process) : SameConfig p p := ⟨rfl, rfl, rfl⟩

theorem SameConfig.trans {p q r : Process} (h1 : SameConfig p q) (h2 : SameConfig q r) :
    SameConfig p r :=
  ⟨h2.1.trans h1.1, h2.2.1.trans h1.2.1, h2.2.2.trans h1.2.2⟩

theorem GetChildrenRecursive_config (sched : Sched) (snapshot : Option (List PsProcess))
    (p : Process) (d : Discovered) (h : GetChildrenRecursive sched snapshot p = .returned d) :
    SameConfig p d.proc := by
  rcases GetChildrenRecursive_returned sched snapshot p d h with
    ⟨-, rfl⟩ | ⟨-, -, rfl⟩ | ⟨-, list, -, -, hdd⟩
  · exact SameConfig.refl p
  · exact SameConfig.refl p
  · rw [hdd]
    exact ⟨rfl, rfl, rfl⟩

theorem Stop_config (sched : Sched) (k : Kernel) (snapshot : Option (List PsProcess))
    (p : Process) (log : List KillEvent) (r : Reply)
    (h : Stop sched k snapshot p log = .returned r) : SameConfig p r.proc := by
  unfold Stop at h
  split at h
  · cases h
    exact SameConfig.refl p
  · split at h
    · cases h
      exact SameConfig.refl p
    · cases hd : GetChildrenRecursive sched snapshot p with
      | fuelOut => rw [hd] at h; cases h
      | blocked =>
        rw [hd] at h
        simp only at h
        split at h
        · cases h
          exact SameConfig.refl p
        · cases h
      | returned d =>
        rw [hd] at h
        have hc := GetChildrenRecursive_config sched snapshot p d hd
        simp only at h
        split at h
        · split at h
          · cases h
            exact SameConfig.refl p
          · cases h
        · split at h
          · cases h
            exact hc
          · cases h
            exact hc

theorem Resume_config (sched : Sched) (k : Kernel) (p : Process) (log : List KillEvent) :
    SameConfig p (Resume sched k p log).proc := by
  unfold Resume
  split
  · exact SameConfig.refl p
  · split
    · exact SameConfig.refl p
    · simp only
      split
      · exact SameConfig.refl p
      · exact ⟨rfl, rfl, rfl⟩

/-- An iteration of the loop in which the root pid exists, the check fails
and `Stop`, if called, returns: the marker is set to the clock reading of the
iteration if it was unset and kept otherwise, and `Exit` is called exactly
when the timeout is positive and smaller than the time since the marker. -/
theorem checkerIteration_fail (k : Kernel) (s s1 : Loop) (t : Tick)
    (hpid : s.proc.Pid ≠ 0) (hcmd : s.proc.CheckCommand ≠ "") (halive : t.alive = true)
    (hfail : t.checkFails = true) (hnext : checkerIteration k s t = .next s1) :
    SameConfig s.proc s1.proc ∧
    s1.failureTime = some (s.failureTime.getD t.nowMark) ∧
    s1.checks = s.checks + 1 ∧
    s1.exits = s.exits ++ [decide (0 < s.proc.CheckTimeout ∧
      s.proc.CheckTimeout < t.nowSince - s.failureTime.getD t.nowMark)] := by
  have hmark : (match s.failureTime with
      | none => t.nowMark
      | some f => f) = s.failureTime.getD t.nowMark := by
    cases s.failureTime <;> rfl
  unfold checkerIteration at hnext
  simp only [PidExists, Check, hpid, hcmd, halive, hfail, if_false, if_true,
    Bool.true_eq_false, hmark] at hnext
  have key : ∀ r : Reply, SameConfig s.proc r.proc →
      (if 0 < r.proc.CheckTimeout ∧
          r.proc.CheckTimeout < t.nowSince - s.failureTime.getD t.nowMark then
        Step.next ⟨(Exit k r.proc r.log).proc, some (s.failureTime.getD t.nowMark),
          (Exit k r.proc r.log).log, s.checks + 1, s.exits ++ [true]⟩
      else Step.next ⟨r.proc, some (s.failureTime.getD t.nowMark), r.log, s.checks + 1,
        s.exits ++ [false]⟩) = .next s1 →
      SameConfig s.proc s1.proc ∧
      s1.failureTime = some (s.failureTime.getD t.nowMark) ∧
      s1.checks = s.checks + 1 ∧
      s1.exits = s.exits ++ [decide (0 < s.proc.CheckTimeout ∧
        s.proc.CheckTimeout < t.nowSince - s.failureTime.getD t.nowMark)] := by
    intro r hc h
    rw [hc.2.2] at h
    by_cases hcond : 0 < s.proc.CheckTimeout ∧
        s.proc.CheckTimeout < t.nowSince - s.failureTime.getD t.nowMark
    · rw [if_pos hcond] at h
      cases h
      refine ⟨?_, rfl, rfl, by simp [hcond]⟩
      rw [(Exit_effect k r.proc r.log).1]
      exact hc
    · rw [if_neg hcond] at h
      cases h
      exact ⟨hc, rfl, rfl, by simp [hcond]⟩
  by_cases hst : s.proc.State = .Running
  · rw [if_pos hst] at hnext
    cases hstop : Stop t.sched k t.snapshot s.proc s.log with
    | blocked => rw [hstop] at hnext; cases hnext
    | fuelOut => rw [hstop] at hnext; cases hnext
    | returned r =>
      rw [hstop] at hnext
      exact key r (Stop_config t.sched k t.snapshot s.proc s.log r hstop) hnext
  · rw [if_neg hst] at hnext
    exact key ⟨false, s.proc, s.log⟩ (SameConfig.refl _) hnext

/-- An iteration of the loop in which the root pid exists and the check
passes always completes; the marker is unset after it when the state was
`Stopped` and unchanged when it was `Running`; `Exit` is not called. -/
theorem checkerIteration_pass (k : Kernel) (s : Loop) (t : Tick)
    (hpid : s.proc.Pid ≠ 0) (halive : t.alive = true) (hpass : t.checkFails = false) :
    ∃ s1, checkerIteration k s t = .next s1 ∧ SameConfig s.proc s1.proc ∧
      s1.failureTime = (if s.proc.State = .Stopped then none else s.failureTime) ∧
      s1.checks = s.checks + 1 ∧ s1.exits = s.exits ++ [false] := by
  have hcheck : Check s.proc t.checkFails = false := by
    unfold Check
    rw [hpass]
    split
    · rfl
    · split <;> rfl
  unfold checkerIteration
  simp only [PidExists, hpid, halive, hcheck, if_false, Bool.true_eq_false,
    Bool.false_eq_true]
  by_cases hst : s.proc.State = .Stopped
  · rw [if_pos hst, if_pos hst]
    exact ⟨_, rfl, Resume_config t.sched k s.proc s.log, rfl, rfl, rfl⟩
  · rw [if_neg hst, if_neg hst]
    exact ⟨_, rfl, SameConfig.refl _, rfl, rfl, rfl⟩

theorem checkerIteration_gone (k : Kernel) (s : Loop) (t : Tick) (h : t.alive = false) :
    checkerIteration k s t = .finished s := by
  unfold checkerIteration
  have : PidExists s.proc t.alive = false := by
    unfold PidExists
    rw [h]
    split <;> rfl
  rw [if_pos this]

/-- A run of iterations in which the root pid exists and the check fails,
started with the marker set: the marker is kept, and each iteration calls
`Exit` exactly when the timeout is positive and smaller than the time since
the marker. -/
theorem checkerLoop_failing (k : Kernel) (f : Int) :
    ∀ (ticks : List Tick) (s s1 : Loop), s.proc.Pid ≠ 0 → s.proc.CheckCommand ≠ "" →
      (∀ t ∈ ticks, t.alive = true ∧ t.checkFails = true) → s.failureTime = some f →
      checkerLoop k s ticks = .looping s1 →
      SameConfig s.proc s1.proc ∧ s1.failureTime = some f ∧
      s1.checks = s.checks + ticks.length ∧
      s1.exits = s.exits ++ ticks.map (fun t =>
        decide (0 < s.proc.CheckTimeout ∧ s.proc.CheckTimeout < t.nowSince - f)) := by
  intro ticks
  induction ticks with
  | nil =>
    intro s s1 _ _ _ hf hrun
    simp only [checkerLoop] at hrun
    cases hrun
    exact ⟨SameConfig.refl _, hf, rfl, by simp⟩
  | cons t ts ih =>
    intro s s1 hpid hcmd hall hf hrun
    have ht := hall t (List.mem_cons_self t ts)
    simp only [checkerLoop] at hrun
    cases hit : checkerIteration k s t with
    | finished s2 => rw [hit] at hrun; cases hrun
    | blocked => rw [hit] at hrun; cases hrun
    | fuelOut => rw [hit] at hrun; cases hrun
    | next s2 =>
      rw [hit] at hrun
      obtain ⟨hc, hft, hch, hex⟩ := checkerIteration_fail k s s2 t hpid hcmd ht.1 ht.2 hit
      rw [hf] at hft hex
      simp only [Option.getD_some] at hft hex
      obtain ⟨hc2, hft2, hch2, hex2⟩ := ih s2 s1 (by rw [hc.1]; exact hpid)
        (by rw [hc.2.1]; exact hcmd) (fun u hu => hall u (List.mem_cons_of_mem t hu)) hft hrun
      refine ⟨hc.trans hc2, hft2, ?_, ?_⟩
      · rw [hch2, hch, List.length_cons]
        omega
      · rw [hex2, hex, hc.2.2, List.map_cons, List.append_assoc, List.singleton_append]

/-- A run of iterations in which the check passes, started with the marker
unset: the marker stays unset. -/
theorem checkerLoop_passing (k : Kernel) :
    ∀ (passes : List Tick) (s s1 : Loop), s.proc.Pid ≠ 0 → s.failureTime = none →
      (∀ t ∈ passes, t.checkFails = false) → checkerLoop k s passes = .looping s1 →
      SameConfig s.proc s1.proc ∧ s1.failureTime = none := by
  intro passes
  induction passes with
  | nil =>
    intro s s1 _ hf _ hrun
    simp only [checkerLoop] at hrun
    cases hrun
    exact ⟨SameConfig.refl _, hf⟩
  | cons t ts ih =>
    intro s s1 hpid hf hall hrun
    simp only [checkerLoop] at hrun
    cases halive : t.alive with
    | false =>
      rw [checkerIteration_gone k s t halive] at hrun
      cases hrun
    | true =>
      obtain ⟨s2, hit, hc, hft, -, -⟩ :=
        checkerIteration_pass k s t hpid halive (hall t (List.mem_cons_self t ts))
      rw [hit] at hrun
      have hnone : s2.failureTime = none := by
        rw [hft, hf]
        split <;> rfl
      obtain ⟨hc2, hft2⟩ := ih s2 s1 (by rw [hc.1]; exact hpid) hnone
        (fun u hu => hall u (List.mem_cons_of_mem t hu)) hrun
      exact ⟨hc.trans hc2, hft2⟩

/-- C3 (amended): for every positive `CheckTimeout` and every run of the loop
that starts with the failure marker unset and in which, in every iteration,
the root pid exists, the check fails and the iteration completes: the marker
is the clock reading `t0` taken in the first of these iterations, and `Exit`
is called in exactly those iterations whose clock reading `now` satisfies
`now - t0 > CheckTimeout`: in none with `now - t0 ≤ CheckTimeout`, and in
every one after the timeout has passed, not once only. -/
theorem checkerLoop_exit_iff (k : Kernel) (s0 s : Loop) (first : Tick) (rest : List Tick)
    (hT : 0 < s0.proc.CheckTimeout) (hpid : s0.proc.Pid ≠ 0)
    (hcmd : s0.proc.CheckCommand ≠ "") (hmark : s0.failureTime = none)
    (hfail : ∀ t ∈ first :: rest, t.alive = true ∧ t.checkFails = true)
    (hrun : checkerLoop k s0 (first :: rest) = .looping s) :
    s.failureTime = some first.nowMark ∧
    s.checks = s0.checks + (rest.length + 1) ∧
    s.exits = s0.exits ++ (first :: rest).map (fun t =>
      decide (s0.proc.CheckTimeout < t.nowSince - first.nowMark)) := by
  have ht := hfail first (List.mem_cons_self first rest)
  simp only [checkerLoop] at hrun
  cases hit : checkerIteration k s0 first with
  | finished s2 => rw [hit] at hrun; cases hrun
  | blocked => rw [hit] at hrun; cases hrun
  | fuelOut => rw [hit] at hrun; cases hrun
  | next s2 =>
    rw [hit] at hrun
    obtain ⟨hc, hft, hch, hex⟩ := checkerIteration_fail k s0 s2 first hpid hcmd ht.1 ht.2 hit
    rw [hmark] at hft hex
    simp only [Option.getD_none] at hft hex
    obtain ⟨-, hft2, hch2, hex2⟩ := checkerLoop_failing k first.nowMark rest s2 s
      (by rw [hc.1]; exact hpid) (by rw [hc.2.1]; exact hcmd)
      (fun u hu => hfail u (List.mem_cons_of_mem first hu)) hft hrun
    refine ⟨hft2, ?_, ?_⟩
    · rw [hch2, hch]
      omega
    · rw [hex2, hex, hc.2.2, List.map_cons, List.append_assoc, List.singleton_append]
      simp only [hT, true_and]

/-- C3, the amended claim at a concrete input: a timeout of three seconds and
six failing iterations one second apart; `Exit` is called in the fifth and
in the sixth. -/
theorem checkerLoop_exit_iff_witness :
    ∃ s, checkerLoop allDelivered ⟨exampleProcess, none, [], 0, []⟩ failingTicks = .looping s ∧
      s.failureTime = some 0 ∧ s.checks = 6 ∧
      s.exits = [false, false, false, false, true, true] := by
  have hrun : checkerLoop allDelivered ⟨exampleProcess, none, [], 0, []⟩ failingTicks =
      .looping ⟨stoppedProcess, some 0,
        [⟨1, .SIGTSTP, true⟩, ⟨2, .SIGTSTP, true⟩, ⟨3, .SIGTSTP, true⟩, ⟨4, .SIGTSTP, true⟩,
          ⟨1, .SIGTERM, true⟩, ⟨1, .SIGTERM, true⟩], 6,
        [false, false, false, false, true, true]⟩ := by decide
  have h := checkerLoop_exit_iff allDelivered ⟨exampleProcess, none, [], 0, []⟩ _
    (failingTick 0) _ (by decide) (by decide) (by decide) rfl (by decide) hrun
  exact ⟨_, hrun, h.1, h.2.1, rfl⟩

/-- C3, as stated, fails: with a timeout of three seconds and a check that
fails from time 0 on, in iterations one second apart, `Exit` is not called in
the iteration at three seconds, the first with `now - t0 ≥ CheckTimeout`, and
it is called twice, in the iterations at four and at five seconds (the two
terminate signals of the log). -/
theorem Checker_exit_not_once :
    Checker allDelivered exampleProcess [] failingTicks =
      .looping ⟨stoppedProcess, some 0,
        [⟨1, .SIGTSTP, true⟩, ⟨2, .SIGTSTP, true⟩, ⟨3, .SIGTSTP, true⟩, ⟨4, .SIGTSTP, true⟩,
          ⟨1, .SIGTERM, true⟩, ⟨1, .SIGTERM, true⟩], 6,
        [false, false, false, false, true, true]⟩ ∧
    exampleProcess.CheckTimeout ≤ (failingTick 3000000000).nowSince - 0 := by
  decide

/-- C4: an iteration of the loop in which the check passes while the state is
`Stopped` completes and leaves the failure marker unset; after any further
passing iterations, the next failing iteration that completes sets the marker
to its own clock reading, and its timeout comparison measures the time since
that reading only. -/
theorem Checker_pass_resets_marker (k : Kernel) (s : Loop) (pass : Tick)
    (hpid : s.proc.Pid ≠ 0) (hcmd : s.proc.CheckCommand ≠ "")
    (hst : s.proc.State = .Stopped) (halive : pass.alive = true)
    (hpass : pass.checkFails = false) :
    ∃ s1, checkerIteration k s pass = .next s1 ∧ s1.failureTime = none ∧
      ∀ (passes : List Tick) (fail : Tick) (s2 s3 : Loop),
        (∀ t ∈ passes, t.checkFails = false) → checkerLoop k s1 passes = .looping s2 →
        fail.checkFails = true → checkerIteration k s2 fail = .next s3 →
        s3.failureTime = some fail.nowMark ∧
        s3.exits = s2.exits ++ [decide (0 < s.proc.CheckTimeout ∧
          s.proc.CheckTimeout < fail.nowSince - fail.nowMark)] := by
  obtain ⟨s1, hit, hc, hft, -, -⟩ := checkerIteration_pass k s pass hpid halive hpass
  rw [if_pos hst] at hft
  refine ⟨s1, hit, hft, ?_⟩
  intro passes fail s2 s3 hall hloop hfails hnext
  obtain ⟨hc2, hft2⟩ := checkerLoop_passing k passes s1 s2 (by rw [hc.1]; exact hpid) hft
    hall hloop
  have hc3 := hc.trans hc2
  have halive2 : fail.alive = true := by
    cases ha : fail.alive with
    | true => rfl
    | false =>
      rw [checkerIteration_gone k s2 fail ha] at hnext
      cases hnext
  obtain ⟨-, hft3, -, hex3⟩ := checkerIteration_fail k s2 s3 fail (by rw [hc3.1]; exact hpid)
    (by rw [hc3.2.1]; exact hcmd) halive2 hfails hnext
  rw [hft2] at hft3 hex3
  simp only [Option.getD_none] at hft3 hex3
  rw [hc3.2.2] at hex3
  exact ⟨hft3, hex3⟩

/-- C4 at a concrete input: the check has failed since time 0 and the process
is stopped; the check passes at 10 and 11 seconds and fails again at 20
seconds. The marker is then 20 seconds and `Exit` is not called, although
more than the timeout of three seconds has passed since time 0. -/
theorem Checker_pass_resets_marker_witness :
    ∃ s1 s2 s3,
      checkerIteration allDelivered ⟨stoppedProcess, some 0, [], 4, []⟩
        (passingTick 10000000000) = .next s1 ∧
      s1.failureTime = none ∧
      checkerLoop allDelivered s1 [passingTick 11000000000] = .looping s2 ∧
      checkerIteration allDelivered s2 (failingTick 20000000000) = .next s3 ∧
      s3.failureTime = some 20000000000 ∧ s3.exits = [false, false, false] := by
  obtain ⟨s1, h1, h2, h3⟩ := Checker_pass_resets_marker allDelivered
    ⟨stoppedProcess, some 0, [], 4, []⟩ (passingTick 10000000000) (by decide) (by decide)
    rfl rfl rfl
  have e1 : checkerIteration allDelivered ⟨stoppedProcess, some 0, [], 4, []⟩
      (passingTick 10000000000) = .next ⟨{ stoppedProcess with State := .Running }, none,
        [⟨1, .SIGCONT, true⟩, ⟨2, .SIGCONT, true⟩, ⟨3, .SIGCONT, true⟩, ⟨4, .SIGCONT, true⟩],
        5, [false]⟩ := by decide
  rw [e1] at h1
  injection h1 with h1
  subst h1
  have e2 : checkerLoop allDelivered ⟨{ stoppedProcess with State := .Running }, none,
        [⟨1, .SIGCONT, true⟩, ⟨2, .SIGCONT, true⟩, ⟨3, .SIGCONT, true⟩, ⟨4, .SIGCONT, true⟩],
        5, [false]⟩ [passingTick 11000000000] =
      .looping ⟨{ stoppedProcess with State := .Running }, none,
        [⟨1, .SIGCONT, true⟩, ⟨2, .SIGCONT, true⟩, ⟨3, .SIGCONT, true⟩, ⟨4, .SIGCONT, true⟩],
        6, [false, false]⟩ := by decide
  have e3 : checkerIteration allDelivered ⟨{ stoppedProcess with State := .Running }, none,
        [⟨1, .SIGCONT, true⟩, ⟨2, .SIGCONT, true⟩, ⟨3, .SIGCONT, true⟩, ⟨4, .SIGCONT, true⟩],
        6, [false, false]⟩ (failingTick 20000000000) =
      .next ⟨stoppedProcess, some 20000000000,
        [⟨1, .SIGCONT, true⟩, ⟨2, .SIGCONT, true⟩, ⟨3, .SIGCONT, true⟩, ⟨4, .SIGCONT, true⟩,
          ⟨1, .SIGTSTP, true⟩, ⟨2, .SIGTSTP, true⟩, ⟨3, .SIGTSTP, true⟩, ⟨4, .SIGTSTP, true⟩],
        7, [false, false, false]⟩ := by decide
  have h4 := h3 [passingTick 11000000000] (failingTick 20000000000) _ _ (by decide) e2 rfl e3
  exact ⟨_, _, _, e1, rfl, e2, e3, h4.1, rfl⟩

/-- C7: with an empty `CheckCommand`, `Checker` returns at once, whatever the
pid, the state, the durations and the environment are: `Check` has been
called zero times, the log of signals is as it was, and the receiver, with
its `State` and `Children`, is unchanged. -/
theorem Checker_no_check_command (k : Kernel) (p : Process) (log : List KillEvent)
    (ticks : List Tick) (h : p.CheckCommand = "") :
    Checker k p log ticks = .returned ⟨p, none, log, 0, []⟩ := by
  unfold Checker
  rw [if_pos h]

/-- C7 at a concrete input: `attachedProcess` has no check command; the
iterations offered are not run. -/
theorem Checker_no_check_command_witness :
    Checker noResume attachedProcess [] failingTicks =
      .returned ⟨attachedProcess, none, [], 0, []⟩ :=
  Checker_no_check_command noResume attachedProcess [] failingTicks rfl

end mf
